import Mathlib

/-!
Verification of the evaluation core of the chat-template repository
(`evals/metrics_custom.py`, `evals/stats_utils.py`, `evals/evals_pipeline.py`,
`evals/client.py`, `evals/aggregate_evals.py`).

Python strings are modelled as `List Char` (`Str`), Python floats as `ℚ`
(exact rational arithmetic; NaN is modelled by `Option`), Python dicts as
association lists processed with Python's insertion/overwrite semantics.
External effects (the judge LLM, numpy's seeded RNG, float sqrt) are
parameters of the embedded functions.
-/

/-- Python str values are sequences of unicode scalar values. -/
abbrev Str := List Char

/-- Left brace character (written via its code point). -/
def lbrace : Char := '\x7b'

/-- Right brace character (written via its code point). -/
def rbrace : Char := '\x7d'

/-- Backslash character. -/
def bslash : Char := '\\'

/-- Double-quote character. -/
def dquote : Char := '"'

/-- Decimal digit character for `d < 10`. -/
def digitCh (d : ℕ) : Char := Char.ofNat (48 + d)

/-- Auxiliary fuel-driven decimal rendering used by `natDec`. -/
def natDecAux : ℕ → ℕ → Str → Str
  | 0, _, acc => acc
  | f + 1, n, acc =>
    if n < 10 then digitCh n :: acc
    else natDecAux f (n / 10) (digitCh (n % 10) :: acc)

/-- Decimal rendering of a natural number, as Python's str()/repr() of an int. -/
def natDec (n : ℕ) : Str := natDecAux (n + 1) n []

/-- Decimal rendering of an integer, as Python's str()/repr() of an int. -/
def intDec (n : ℤ) : Str := if n < 0 then '-' :: natDec n.natAbs else natDec n.toNat

/- JSON / Python values as returned by `json.loads`: None, bool, int, str,
list and dict.  Python floats are not modelled; JSON numbers with a fraction
or exponent are treated as decode failures (no claim exercises them). -/
mutual
inductive JVal where
  | null
  | bool (b : Bool)
  | int (n : ℤ)
  | str (s : Str)
  | arr (xs : JArr)
  | obj (fs : JObj)
deriving Repr
inductive JArr where
  | nil
  | cons (hd : JVal) (tl : JArr)
deriving Repr
inductive JObj where
  | nil
  | cons (key : Str) (val : JVal) (tl : JObj)
deriving Repr
end

/-- Convert a modelled JSON array to a Lean list. -/
def JArr.toList : JArr → List JVal
  | .nil => []
  | .cons x tl => x :: tl.toList

/-- Build a modelled JSON array from a Lean list. -/
def JArr.ofList : List JVal → JArr
  | [] => .nil
  | x :: tl => .cons x (JArr.ofList tl)

/-- Keys of a modelled JSON object, in order. -/
def JObj.keys : JObj → List Str
  | .nil => []
  | .cons k _ tl => k :: tl.keys

/-- First-match lookup in a modelled JSON object (Python dicts have unique
keys, so first-match agrees with dict access). -/
def JObj.find : JObj → Str → Option JVal
  | .nil, _ => none
  | .cons k v tl, key => if k = key then some v else tl.find key

/-- Remove the (first) entry with the given key. -/
def JObj.erase : JObj → Str → JObj
  | .nil, _ => .nil
  | .cons k v tl, key => if k = key then tl else .cons k v (tl.erase key)

/-- Python dict-building semantics for a pair sequence: the first occurrence
of a key fixes its position, the last occurrence fixes its value.  `combine
k v fs` prepends the pair `(k, v)` to the already-built dict `fs` for the
later pairs. -/
def JObj.combine (k : Str) (v : JVal) (fs : JObj) : JObj :=
  match fs.find k with
  | some v' => .cons k v' (fs.erase k)
  | none => .cons k v fs

/-- Python `dict.get(key, default)` on a dict value; on a non-dict the
attribute access raises, modelled by `none`. -/
def jget (v : JVal) (key : Str) (dflt : JVal) : Option JVal :=
  match v with
  | .obj fs => some ((fs.find key).getD dflt)
  | _ => none

/-- Python truthiness of a value (`bool(x)`). -/
def pyTruthy : JVal → Bool
  | .null => false
  | .bool b => b
  | .int n => n ≠ 0
  | .str s => !s.isEmpty
  | .arr .nil => false
  | .arr (.cons _ _) => true
  | .obj .nil => false
  | .obj (.cons _ _ _) => true

/-- Python `float(x)`.  Defined on ints and booleans; other inputs raise
(modelled by `none`).  Numeric-string conversion is not modelled: no claim
exercises it. -/
def pyFloat : JVal → Option ℚ
  | .int n => some n
  | .bool b => some (if b then 1 else 0)
  | _ => none

/-- Python iteration over a value, as used by `enumerate(atomic_facts)`:
lists yield their elements, strings their characters, dicts their keys;
other values raise (modelled by `none`). -/
def pyIter : JVal → Option (List JVal)
  | .arr xs => some xs.toList
  | .str s => some (s.map (fun c => .str [c]))
  | .obj fs => some (fs.keys.map .str)
  | _ => none

/- Fuel-driven renderer behind `pyStr`, together with its list and dict
companions. -/
mutual
def pyStrF : ℕ → JVal → Str
  | _, .null => "None".data
  | _, .bool b => (if b then "True" else "False").data
  | _, .int n => intDec n
  | _, .str s => s
  | 0, _ => []
  | f + 1, .arr xs => '[' :: pyStrArr f xs ++ [']']
  | f + 1, .obj fs => lbrace :: pyStrObj f fs ++ [rbrace]
def pyStrArr : ℕ → JArr → Str
  | 0, _ => []
  | _ + 1, .nil => []
  | f + 1, .cons x .nil => pyStrF f x
  | f + 1, .cons x (.cons y tl) => pyStrF f x ++ ", ".data ++ pyStrArr f (.cons y tl)
def pyStrObj : ℕ → JObj → Str
  | 0, _ => []
  | _ + 1, .nil => []
  | f + 1, .cons k v .nil => k ++ ": ".data ++ pyStrF f v
  | f + 1, .cons k v (.cons k2 v2 tl) =>
    k ++ ": ".data ++ pyStrF f v ++ ", ".data ++ pyStrObj f (.cons k2 v2 tl)
end

/- Computable size measure for the mutual JSON value types, used as fuel. -/
mutual
def jsize : JVal → ℕ
  | .null | .bool _ | .int _ | .str _ => 1
  | .arr xs => 1 + jsizeA xs
  | .obj fs => 1 + jsizeO fs
def jsizeA : JArr → ℕ
  | .nil => 1
  | .cons x tl => 1 + jsize x + jsizeA tl
def jsizeO : JObj → ℕ
  | .nil => 1
  | .cons _ v tl => 1 + jsize v + jsizeO tl
end

/-- Models Python `str(x)` as used for f-string prompt interpolation.  Exact
for strings, ints, booleans and None; container rendering is approximate
(Python's repr quoting of nested strings is not reproduced).  The result
only ever feeds the opaque prompt text passed to the judge parameter, so no
theorem depends on the container cases. -/
def pyStr (v : JVal) : Str := pyStrF (jsize v) v

/-- Lowercase hex digit character for `n < 16`. -/
def hexDigitCh (n : ℕ) : Char := if n < 10 then Char.ofNat (48 + n) else Char.ofNat (87 + n)

/-- Four lowercase hex digits of `n < 0x10000`, as in a JSON u-escape. -/
def hex4 (n : ℕ) : Str :=
  [hexDigitCh (n / 4096 % 16), hexDigitCh (n / 256 % 16), hexDigitCh (n / 16 % 16), hexDigitCh (n % 16)]

/-- Escaping of a single character by `json.dumps` with its default
`ensure_ascii=True`: backslash, quote and the short control escapes are
rendered specially, other control or non-ASCII characters become u-escapes
(a surrogate pair beyond the BMP), anything else is kept verbatim. -/
def escChar (c : Char) : Str :=
  if c = dquote then [bslash, dquote]
  else if c = bslash then [bslash, bslash]
  else if c = '\x08' then [bslash, 'b']
  else if c = '\t' then [bslash, 't']
  else if c = '\n' then [bslash, 'n']
  else if c = '\x0c' then [bslash, 'f']
  else if c = '\r' then [bslash, 'r']
  else if c.toNat < 0x20 ∨ 0x7e < c.toNat then
    if c.toNat < 0x10000 then bslash :: 'u' :: hex4 c.toNat
    else
      bslash :: 'u' :: hex4 (0xd800 + (c.toNat - 0x10000) / 0x400) ++
        bslash :: 'u' :: hex4 (0xdc00 + (c.toNat - 0x10000) % 0x400)
  else [c]

/-- Escape every character of a string for `json.dumps`. -/
def escList : Str → Str
  | [] => []
  | c :: cs => escChar c ++ escList cs

/-- A JSON string literal as written by `json.dumps`. -/
def jdumpStr (s : Str) : Str := dquote :: escList s ++ [dquote]

/- `json.dumps` with its default separators `", "` and `": "` and
`ensure_ascii=True`, as called by `save_rag_results`. -/
mutual
def jdump : JVal → Str
  | .null => "null".data
  | .bool b => (if b then "true" else "false").data
  | .int n => intDec n
  | .str s => jdumpStr s
  | .arr xs => '[' :: jdumpArr xs ++ [']']
  | .obj fs => lbrace :: jdumpObj fs ++ [rbrace]
def jdumpArr : JArr → Str
  | .nil => []
  | .cons x .nil => jdump x
  | .cons x (.cons y tl) => jdump x ++ ", ".data ++ jdumpArr (.cons y tl)
def jdumpObj : JObj → Str
  | .nil => []
  | .cons k v .nil => jdumpStr k ++ ": ".data ++ jdump v
  | .cons k v (.cons k2 v2 tl) =>
    jdumpStr k ++ ": ".data ++ jdump v ++ ", ".data ++ jdumpObj (.cons k2 v2 tl)
end

/- Well-formedness of a value originating from Python data: every dict has
pairwise distinct keys (guaranteed for values built by `json.loads` or by
Python dict literals). -/
mutual
def jwf : JVal → Bool
  | .null | .bool _ | .int _ | .str _ => true
  | .arr xs => jwfA xs
  | .obj fs => jwfO fs
def jwfA : JArr → Bool
  | .nil => true
  | .cons x tl => jwf x && jwfA tl
def jwfO : JObj → Bool
  | .nil => true
  | .cons k v tl => !(tl.keys.contains k) && jwf v && jwfO tl
end

/-- JSON whitespace accepted between tokens by `json.loads`. -/
def isJsonWs (c : Char) : Bool := c = ' ' || c = '\t' || c = '\n' || c = '\r'

/-- Skip JSON whitespace. -/
def jws (cs : Str) : Str := cs.dropWhile isJsonWs

/-- ASCII decimal digit test. -/
def isDigitCh (c : Char) : Bool := 48 ≤ c.toNat && c.toNat ≤ 57

/-- Value of a hex digit character. -/
def hexVal (c : Char) : Option ℕ :=
  if 48 ≤ c.toNat ∧ c.toNat ≤ 57 then some (c.toNat - 48)
  else if 97 ≤ c.toNat ∧ c.toNat ≤ 102 then some (c.toNat - 87)
  else if 65 ≤ c.toNat ∧ c.toNat ≤ 70 then some (c.toNat - 55)
  else none

/-- Parse exactly four hex digits. -/
def parseHex4 : Str → Option (ℕ × Str)
  | a :: b :: c :: d :: rest => do
    let x ← hexVal a
    let y ← hexVal b
    let z ← hexVal c
    let w ← hexVal d
    pure (((x * 16 + y) * 16 + z) * 16 + w, rest)
  | _ => none

/-- Decode a single-character JSON escape. -/
def escDecode (e : Char) : Option Char :=
  if e = dquote then some dquote
  else if e = bslash then some bslash
  else if e = '/' then some '/'
  else if e = 'b' then some '\x08'
  else if e = 'f' then some '\x0c'
  else if e = 'n' then some '\n'
  else if e = 'r' then some '\r'
  else if e = 't' then some '\t'
  else none

/-- Scan of a u-escaped character after `\u`, per Python's strict scanner:
a high surrogate must be followed by a second u-escape holding the low
surrogate, and the pair is recombined.  Lone surrogates (which Python would
keep) are not representable as Lean characters and are rejected;
`json.dumps` never produces them. -/
def uEscapeScan (cs : Str) : Option (Char × Str) :=
  (parseHex4 cs).bind (fun q =>
    if 0xd800 ≤ q.1 ∧ q.1 ≤ 0xdbff then
      if ([bslash, 'u'] : Str).isPrefixOf q.2 then
        (parseHex4 (q.2.drop 2)).bind (fun q2 =>
          if 0xdc00 ≤ q2.1 ∧ q2.1 ≤ 0xdfff then
            some (Char.ofNat (0x10000 + (q.1 - 0xd800) * 0x400 + (q2.1 - 0xdc00)), q2.2)
          else none)
      else none
    else if 0xdc00 ≤ q.1 ∧ q.1 ≤ 0xdfff then none
    else some (Char.ofNat q.1, q.2))

/-- Body of a JSON string literal (after the opening quote), per Python's
strict scanner: literal control characters are rejected, escapes are
decoded (`uEscapeScan` reading the u-escapes). -/
def parseStringBody : ℕ → Str → Option (Str × Str)
  | 0, _ => none
  | f + 1, cs =>
    match cs with
    | [] => none
    | c :: rest =>
      if c = dquote then some ([], rest)
      else if c = bslash then
        match rest with
        | [] => none
        | e :: rest2 =>
          if e = 'u' then
            (uEscapeScan rest2).bind (fun q =>
              (parseStringBody f q.2).map (fun p => (q.1 :: p.1, p.2)))
          else
            match escDecode e with
            | some d => (parseStringBody f rest2).map (fun p => (d :: p.1, p.2))
            | none => none
      else if c.toNat < 0x20 then none
      else (parseStringBody f rest).map (fun p => (c :: p.1, p.2))

/-- Accumulating decimal value of a digit string. -/
def digitsVal (acc : ℕ) : Str → ℕ
  | [] => acc
  | c :: cs => digitsVal (acc * 10 + (c.toNat - 48)) cs

/-- Parse a JSON integer token (optional minus, no leading zeros); numbers
with a fraction or exponent are modelled as decode failures since floats are
outside the model. -/
def parseIntTok (cs : Str) : Option (ℤ × Str) :=
  let neg : Bool := match cs with
    | c :: _ => c = '-'
    | [] => false
  let cs1 := if neg then cs.drop 1 else cs
  let ds := cs1.takeWhile isDigitCh
  let rest := cs1.dropWhile isDigitCh
  match ds with
  | [] => none
  | d0 :: dtl =>
    if d0 = '0' ∧ ¬dtl.isEmpty then none
    else
      let next_ok : Bool := match rest with
        | [] => true
        | c :: _ => !(isDigitCh c || c = '.' || c = 'e' || c = 'E')
      if next_ok then
        some ((if neg then -(digitsVal 0 ds : ℤ) else (digitsVal 0 ds : ℤ)), rest)
      else none

/- Recursive-descent JSON value parser, fuel-driven (one unit of fuel per
nested value or container member), modelling `json.loads`. -/
mutual
def parseVal : ℕ → Str → Option (JVal × Str)
  | 0, _ => none
  | f + 1, cs =>
    match jws cs with
    | [] => none
    | c :: rest =>
      if c = lbrace then
        match jws rest with
        | c2 :: rest2 =>
          if c2 = rbrace then some (.obj .nil, rest2)
          else (parseMembers f (c2 :: rest2)).map (fun p => (.obj p.1, p.2))
        | [] => none
      else if c = '[' then
        match jws rest with
        | c2 :: rest2 =>
          if c2 = ']' then some (.arr .nil, rest2)
          else (parseElems f (c2 :: rest2)).map (fun p => (.arr p.1, p.2))
        | [] => none
      else if c = dquote then
        (parseStringBody (rest.length + 1) rest).map (fun p => (.str p.1, p.2))
      else if c = 't' then
        if "rue".data.isPrefixOf rest then some (.bool true, rest.drop 3) else none
      else if c = 'f' then
        if "alse".data.isPrefixOf rest then some (.bool false, rest.drop 4) else none
      else if c = 'n' then
        if "ull".data.isPrefixOf rest then some (.null, rest.drop 3) else none
      else
        (parseIntTok (c :: rest)).map (fun p => (.int p.1, p.2))
def parseElems : ℕ → Str → Option (JArr × Str)
  | 0, _ => none
  | f + 1, cs =>
    match parseVal f cs with
    | none => none
    | some (v, r1) =>
      match jws r1 with
      | ',' :: r2 => (parseElems f r2).map (fun p => (.cons v p.1, p.2))
      | c :: r2 => if c = ']' then some (.cons v .nil, r2) else none
      | [] => none
def parseMembers : ℕ → Str → Option (JObj × Str)
  | 0, _ => none
  | f + 1, cs =>
    match jws cs with
    | c :: rest =>
      if c = dquote then
        match parseStringBody (rest.length + 1) rest with
        | none => none
        | some (k, r1) =>
          match jws r1 with
          | ':' :: r2 =>
            match parseVal f r2 with
            | none => none
            | some (v, r3) =>
              match jws r3 with
              | ',' :: r4 => (parseMembers f r4).map (fun p => (JObj.combine k v p.1, p.2))
              | c2 :: r4 => if c2 = rbrace then some (.cons k v .nil, r4) else none
              | [] => none
          | _ => none
      else none
    | [] => none
end

/-- Python `json.loads`: parse a complete document, allowing trailing
whitespace only. -/
def json_loads (s : Str) : Option JVal :=
  match parseVal (s.length + 1) s with
  | some (v, rest) => if (jws rest).isEmpty then some v else none
  | none => none

/-- Whitespace of Python's regex `\s` on ASCII text (the unicode whitespace
characters `\s` also matches are not modelled; the judge prompts and
responses exercised here are ASCII). -/
def isReWs (c : Char) : Bool :=
  c = ' ' || c = '\t' || c = '\n' || c = '\r' || c = '\x0b' || c = '\x0c'

/-- Skip regex whitespace. -/
def dropReWs (cs : Str) : Str := cs.dropWhile isReWs

/-- Lazy scan (`\x7b.*?\x7d` followed by `\s*` and a closing fence) for the
earliest closing brace whose following text, after optional whitespace,
starts with three backticks; returns the characters strictly between the
braces. -/
def lazyBrace (seen : Str) : Str → Option Str
  | [] => none
  | c :: rest =>
    if c = rbrace ∧ "```".data.isPrefixOf (dropReWs rest) then some seen.reverse
    else lazyBrace (c :: seen) rest

/-- Attempt of the fenced-block pattern at one start position, following the
regex backtracking order of Python's
`re.search` with the fenced pattern: three backticks, an optional literal
`json`, optional whitespace, then the lazily-matched brace group and the
closing fence.  When `json` directly follows the ticks the optional branch
must take it (the empty branch then fails at the whitespace-brace step), so
the two branches never both apply. -/
def fencedAt (cs : Str) : Option Str :=
  if "```".data.isPrefixOf cs then
    let afterTicks := cs.drop 3
    let afterJson :=
      if "json".data.isPrefixOf afterTicks then afterTicks.drop 4 else afterTicks
    match dropReWs afterJson with
    | c :: body => if c = lbrace then lazyBrace [] body else none
    | [] => none
  else none

/-- Leftmost search for the fenced pattern; returns the brace-delimited
group (group 1 of the Python regex). -/
def searchFenced : Str → Option Str
  | [] => none
  | c :: rest =>
    match fencedAt (c :: rest) with
    | some inner => some (lbrace :: inner ++ [rbrace])
    | none => searchFenced rest

/-- Longest prefix of the input that ends at its last closing brace, if any
closing brace exists. -/
def upToLastClose : Str → Option Str
  | [] => none
  | c :: rest =>
    match upToLastClose rest with
    | some t => some (c :: t)
    | none => if c = rbrace then some [c] else none

/-- Leftmost-longest match of the DOTALL pattern `\x7b.*\x7d`: from the
first opening brace to the last closing brace after it. -/
def searchBraces (t : Str) : Option Str :=
  match t.dropWhile (fun c => c ≠ lbrace) with
  | [] => none
  | c :: rest => (upToLastClose rest).map (fun t2 => c :: t2)

/-- `extract_json_from_text` from `evals/metrics_custom.py`: try the fenced
code-block pattern first, then the first brace-delimited substring, then
fall back to the text itself. -/
def extract_json_from_text (text : Str) : Str :=
  match searchFenced text with
  | some g => g
  | none =>
    match searchBraces text with
    | some g => g
    | none => text

/-- An evaluation sample (`EvalSample` in `evals/data.py`); `sample_id` is
declared `str` there, so Python's `str(sample.sample_id)` is the identity. -/
structure EvalSample where
  sample_id : Str
  input : Str
  human_reference_answer : Str
  human_reference_citation : Option Str
  source : Option Str
  metadata : List (Str × JVal)
deriving Repr

/-- A generation result as produced by the RAG clients: keys `answer`,
`contexts`, `raw`. -/
structure RagOutput where
  answer : Str
  contexts : List Str
  raw : JVal
deriving Repr

instance : Inhabited RagOutput := ⟨⟨[], [], .null⟩⟩

/-- Model of `asyncio.gather`: each coroutine finishes at some point of the
completion order `order` (a permutation of the task indices), and gather
stores every result in the slot of its task index, returning the slots in
task order. -/
def asyncGather {α : Type} (tasks : List α) (order : List ℕ) : List α :=
  let completed := order.filterMap (fun i => (tasks[i]?).map (fun v => (i, v)))
  (List.range tasks.length).filterMap (fun i => completed.lookup i)

/-- `BaseRagClient.generate_batch` from `evals/client.py`: per-sample
coroutines run under a semaphore capping concurrency (the cap only limits
how many run at once and cannot affect the returned values) and are
collected with `asyncio.gather`, whose completion order is modelled by
`order`. -/
def generate_batch {α β : Type} (generate : α → β) (samples : List α)
    (max_concurrency : ℕ) (order : List ℕ) : List β :=
  asyncGather (samples.map generate) order

/-- Insertion step of the stable sort model. -/
def insertLe {α : Type} (le : α → α → Bool) (a : α) : List α → List α
  | [] => [a]
  | b :: bs => if le a b then a :: b :: bs else b :: insertLe le a bs

/-- Stable insertion sort, modelling Python's stable `list.sort` (any stable
sort computes the same list). -/
def sortLe {α : Type} (le : α → α → Bool) : List α → List α
  | [] => []
  | a :: as => insertLe le a (sortLe le as)

/-- Collect the `text` entries of content blocks.  In the source both
branches of the `if type == "text" and "text" in block / elif "text" in
block` append `block["text"]`, so a dict block contributes exactly when it
has a `text` key; non-dict blocks are skipped. -/
def collectTextParts : List JVal → List JVal
  | [] => []
  | b :: rest =>
    match b with
    | .obj fs =>
      match fs.find "text".data with
      | some t => t :: collectTextParts rest
      | none => collectTextParts rest
    | _ => collectTextParts rest

/-- Python `"".join(parts)`: concatenates string parts, raising (none) on a
non-string part. -/
def joinStrParts : List JVal → Option Str
  | [] => some []
  | .str s :: rest => (joinStrParts rest).map (fun t => s ++ t)
  | _ => none

/-- `extract_text_content` from `evals/metrics_custom.py`. -/
def extract_text_content : JVal → Option Str
  | .str s => some s
  | .arr blocks => joinStrParts (collectTextParts blocks.toList)
  | v => some (pyStr v)

/-- A scored record of `BinaryCorrectnessMetric`; its
`ai_evaluation_explanation` payload is the one-key dict
`\x7b"explanation": explanation\x7d`. -/
structure BinaryRecord where
  id : Str
  metric : Str
  score : ℚ
  explanation : JVal
deriving Repr

/-- The grading prompt of `BinaryCorrectnessMetric._grade_one`. -/
def binaryPrompt (sample : EvalSample) (output : RagOutput) : Str :=
  "\nYou are grading the factual correctness of the model answer\ncompared to the reference answer.\n\nQuestion:\n".data
    ++ sample.input
    ++ "\n\nReference answer:\n".data ++ sample.human_reference_answer
    ++ "\n\nModel answer:\n".data ++ output.answer
    ++ "\n\nReturn JSON with:\n- score: 0 or 1\n- explanation: short explanation\n".data

/-- `BinaryCorrectnessMetric._grade_one`: judge call, text extraction, JSON
extraction, parse with fallback-to-zero on decode failure, then
`float(obj.get("score", 0))` and `obj.get("explanation", "")`.  `none`
models an uncaught exception (a non-dict payload or a non-numeric score). -/
def binary_grade_one (judge : Str → JVal) (sample : EvalSample) (output : RagOutput) :
    Option BinaryRecord :=
  match extract_text_content (judge (binaryPrompt sample output)) with
  | none => none
  | some text_content =>
    let json_text := extract_json_from_text text_content
    let obj : JVal :=
      match json_loads json_text with
      | some v => v
      | none =>
        .obj (.cons "score".data (.int 0)
          (.cons "explanation".data
            (.str ("Failed to parse judge response. Raw content: ".data ++ text_content.take 200))
            .nil))
    match jget obj "score".data (.int 0) with
    | none => none
    | some sv =>
      match pyFloat sv with
      | none => none
      | some q =>
        match jget obj "explanation".data (.str []) with
        | none => none
        | some ev => some ⟨sample.sample_id, "correctness_binary".data, q, ev⟩

/-- `BinaryCorrectnessMetric.evaluate`: one grading task per zipped
(sample, output) pair, gathered in task order; a raise in any task
propagates (`none`). -/
def binary_evaluate (judge : Str → JVal) (samples : List EvalSample)
    (outputs : List RagOutput) : Option (List BinaryRecord) :=
  (samples.zip outputs).mapM (fun p => binary_grade_one judge p.1 p.2)

/-- One per-fact verdict of `AtomicCorrectnessMetric`. -/
structure FactEval where
  fact_index : ℕ
  atomic_fact : JVal
  found : Bool
  explanation : JVal
deriving Repr

/-- The `ai_evaluation_explanation` payload of an atomic record: the two
branches of `_grade_one` emit dicts with different key sets. -/
inductive AtomicExplanation where
  | extraction_failed (atomic_facts_count atomic_facts_found : ℕ)
      (explanation : Str) (atomic_facts : List JVal)
  | evaluated (atomic_facts_count atomic_facts_found : ℕ)
      (fact_evaluations : List FactEval)
deriving Repr

/-- A scored record of `AtomicCorrectnessMetric`. -/
structure AtomicRecord where
  id : Str
  metric : Str
  score : ℚ
  ai_evaluation_explanation : AtomicExplanation
deriving Repr

/-- The fact-extraction prompt of `AtomicCorrectnessMetric._grade_one`. -/
def extractPrompt (sample : EvalSample) : Str :=
  "\nYou are analyzing a reference answer to identify atomic facts.\n\nDefinition of an atomic fact:\nA minimal, self-contained, non-decomposable factual statement that conveys exactly one verifiable unit of information such that:\n- It cannot be broken into smaller facts without losing meaning\n- It contains exactly one claim that can be independently supported or contradicted by retrieved context\n- It is fully evaluable (true/false/not-answerable) based on provided evidence\n\nQuestion:\n".data
    ++ sample.input
    ++ "\n\nReference answer:\n".data ++ sample.human_reference_answer
    ++ "\n\nExtract all atomic facts from the reference answer. Return JSON with:\n- atomic_facts: a list of strings, where each string is one atomic fact\n\nExample format:\n\x7b\n  \"atomic_facts\": [\n    \"Fact 1: ...\",\n    \"Fact 2: ...\",\n    \"Fact 3: ...\"\n  ]\n\x7d\n".data

/-- The per-fact verification prompt of `_check_one_fact`. -/
def checkPrompt (sample : EvalSample) (output : RagOutput) (atomic_fact : JVal) : Str :=
  "\nYou are checking if a specific atomic fact from the reference answer is present in the AI answer.\n\nQuestion:\n".data
    ++ sample.input
    ++ "\n\nReference answer:\n".data ++ sample.human_reference_answer
    ++ "\n\nAI answer:\n".data ++ output.answer
    ++ "\n\nAtomic fact to check:\n".data ++ pyStr atomic_fact
    ++ "\n\nDetermine if this atomic fact is present in the AI answer. An atomic fact is considered present if:\n- The AI answer contains the same factual claim (even if worded differently)\n- The AI answer supports or confirms the atomic fact\n- The information is clearly conveyed, not just implied\n\nReturn JSON with:\n- found: true or false (boolean indicating if the atomic fact is present)\n- explanation: a brief explanation of why the fact was or was not found\n\nExample format:\n\x7b\n  \"found\": true,\n  \"explanation\": \"The AI answer states that...\"\n\x7d\n".data

/-- `_check_one_fact`: verification judge call for one atomic fact;
`found = bool(check_obj.get("found", False))`, decode failure gives
`found = False` with the fixed explanation, a non-dict payload raises. -/
def check_one_fact (judge : Str → JVal) (sample : EvalSample) (output : RagOutput)
    (fact_index : ℕ) (atomic_fact : JVal) : Option FactEval :=
  match extract_text_content (judge (checkPrompt sample output atomic_fact)) with
  | none => none
  | some text_content =>
    let json_text := extract_json_from_text text_content
    match json_loads json_text with
    | some v =>
      match jget v "found".data (.bool false) with
      | none => none
      | some fv =>
        match jget v "explanation".data (.str []) with
        | none => none
        | some ev => some ⟨fact_index, atomic_fact, pyTruthy fv, ev⟩
    | none =>
      some ⟨fact_index, atomic_fact, false,
        .str "Failed to parse judge response for this atomic fact.".data⟩

/-- Collects gathered results, propagating a raise (`none`) of any task as
`asyncio.gather` does. -/
def gatherJoin {α : Type} : List (Option α) → Option (List α)
  | [] => some []
  | none :: _ => none
  | some a :: rest => (gatherJoin rest).map (a :: ·)

/-- `AtomicCorrectnessMetric._grade_one` for one sample: extraction phase,
early return with score 0.0 when no facts were extracted, otherwise
concurrent per-fact verification (completion order modelled by `order`),
sort of the verdicts by `fact_index`, and the `facts_found / total_facts`
score.  The second component of the result lists the verification prompts
issued for the sample. -/
def atomic_grade_one (judge : Str → JVal) (order : List ℕ) (sample : EvalSample)
    (output : RagOutput) : Option (AtomicRecord × List Str) :=
  match extract_text_content (judge (extractPrompt sample)) with
  | none => none
  | some text_content =>
    let json_text := extract_json_from_text text_content
    let factsVal : Option JVal :=
      match json_loads json_text with
      | some v => jget v "atomic_facts".data (.arr .nil)
      | none => some (.arr .nil)
    match factsVal with
    | none => none
    | some fv =>
      if pyTruthy fv = false then
        some (⟨sample.sample_id, "correctness_atomic".data, 0,
          .extraction_failed 0 0
            "Failed to extract atomic facts from reference answer".data []⟩, [])
      else
        match pyIter fv with
        | none => none
        | some atomic_facts =>
          let tasks := atomic_facts.enum.map
            (fun p => check_one_fact judge sample output p.1 p.2)
          match gatherJoin (asyncGather tasks order) with
          | none => none
          | some gathered =>
            let fact_evaluations :=
              sortLe (fun a b => decide (a.fact_index ≤ b.fact_index)) gathered
            let facts_found := (fact_evaluations.filter (fun e => e.found)).length
            let total_facts := atomic_facts.length
            let score : ℚ :=
              if 0 < total_facts then (facts_found : ℚ) / (total_facts : ℚ) else 0
            some (⟨sample.sample_id, "correctness_atomic".data, score,
              .evaluated total_facts facts_found fact_evaluations⟩,
              atomic_facts.enum.map (fun p => checkPrompt sample output p.2))

/-- `AtomicCorrectnessMetric.evaluate`: one `_grade_one` task per zipped
pair; `orders i` is the completion order of the verification calls of the
i-th sample. -/
def atomic_evaluate (judge : Str → JVal) (orders : ℕ → List ℕ)
    (samples : List EvalSample) (outputs : List RagOutput) :
    Option (List (AtomicRecord × List Str)) :=
  (samples.zip outputs).enum.mapM
    (fun p => atomic_grade_one judge (orders p.1) p.2.1 p.2.2)

/-- The summary record of `aggregate_metric` (`evals/stats_utils.py`); a
`none` field models the float NaN of the empty branch. -/
structure MetricSummary where
  mean : Option ℚ
  std : Option ℚ
  median : Option ℚ
  min : Option ℚ
  max : Option ℚ
  ci_lower : Option ℚ
  ci_upper : Option ℚ
deriving Repr, DecidableEq

/-- Arithmetic mean (`arr.mean()`). -/
def meanQ (xs : List ℚ) : ℚ := xs.sum / (xs.length : ℚ)

/-- Ascending numeric sort used by the percentile and median models. -/
def sortQ (xs : List ℚ) : List ℚ := sortLe (fun a b => decide (a ≤ b)) xs

/-- `np.percentile` with its default linear interpolation. -/
def percentileQ (q : ℚ) (xs : List ℚ) : ℚ :=
  let s := sortQ xs
  let pos : ℚ := q / 100 * ((s.length : ℚ) - 1)
  let k : ℤ := ⌊pos⌋
  let lo := s.getD k.toNat 0
  let hi := s.getD (k.toNat + 1) lo
  lo + (pos - (k : ℚ)) * (hi - lo)

/-- `np.median`: middle element, or the mean of the two middle elements. -/
def medianQ (xs : List ℚ) : ℚ :=
  let s := sortQ xs
  let n := s.length
  if n % 2 = 1 then s.getD (n / 2) 0
  else (s.getD (n / 2 - 1) 0 + s.getD (n / 2) 0) / 2

/-- Minimum of a score list (`arr.min()`). -/
def listMin : List ℚ → ℚ
  | [] => 0
  | x :: tl => tl.foldl min x

/-- Maximum of a score list (`arr.max()`). -/
def listMax : List ℚ → ℚ
  | [] => 0
  | x :: tl => tl.foldl max x

/-- `aggregate_metric` from `evals/stats_utils.py`.  `sqrtF` models
numpy's float square root (there is no exact rational counterpart) and
`draws r j` models the j-th index drawn by the seed-42 generator for the
r-th bootstrap resample (`rng.choice` with replacement draws uniform
indices; `% n` keeps the model total).  The empty branch precedes both. -/
def aggregate_metric (sqrtF : ℚ → ℚ) (draws : ℕ → ℕ → ℕ)
    (scores : List ℚ) (ci : ℚ) : MetricSummary :=
  if scores.length = 0 then ⟨none, none, none, none, none, none, none⟩
  else
    let n := scores.length
    let mean := meanQ scores
    let std : ℚ :=
      if 1 < n then sqrtF (((scores.map (fun x => (x - mean) ^ 2)).sum) / ((n : ℚ) - 1))
      else 0
    let n_boot := 1000
    let boot_means := (List.range n_boot).map
      (fun r => meanQ ((List.range n).map (fun j => scores.getD (draws r j % n) 0)))
    let lower := percentileQ ((1 - ci) / 2 * 100) boot_means
    let upper := percentileQ ((1 + ci) / 2 * 100) boot_means
    ⟨some mean, some std, some (medianQ scores), some (listMin scores),
      some (listMax scores), some lower, some upper⟩

/-- A row of `rag_results.csv`.  The csv layer itself (quoting and
unquoting by Python's `csv` module) is modelled as storing the four fields
of each row verbatim, which is what a `DictWriter`/`DictReader` pair
guarantees. -/
structure RagRow where
  sample_id : Str
  answer : Str
  contexts : Str
  raw : Str
deriving Repr, DecidableEq

/-- Python dict lookup on an association list (keys are unique in dicts, so
first match is the match). -/
def dictFind {β : Type} : List (Str × β) → Str → Option β
  | [], _ => none
  | (k, v) :: tl, key => if k = key then some v else dictFind tl key

/-- Python dict assignment `d[key] = v`: replace in place or append. -/
def dictInsert {β : Type} : List (Str × β) → Str → β → List (Str × β)
  | [], key, v => [(key, v)]
  | (k, w) :: tl, key, v =>
    if k = key then (k, v) :: tl else (k, w) :: dictInsert tl key v

/-- `save_rag_results` from `evals/evals_pipeline.py`: one row per sample
whose id is a key of `results_by_id`, in sample order; the `contexts` and
`raw` values are JSON-encoded into their cells, the `answer` cell holds the
csv stringification of the answer value.  `none` models a raise (a
non-dict output value). -/
def save_rag_results (samples : List EvalSample) (results_by_id : List (Str × JVal)) :
    Option (List RagRow) :=
  samples.foldr
    (fun sample acc =>
      match acc with
      | none => none
      | some rows =>
        match dictFind results_by_id sample.sample_id with
        | none => some rows
        | some output =>
          match jget output "answer".data (.str []),
              jget output "contexts".data (.arr .nil),
              jget output "raw".data (.obj .nil) with
          | some av, some cv, some rv =>
            some (⟨sample.sample_id, pyStr av, jdump cv, jdump rv⟩ :: rows)
          | _, _, _ => none)
    (some [])

/-- `load_rag_results` from `evals/evals_pipeline.py`: rebuild the mapping
from the csv rows, JSON-decoding the `contexts` and `raw` cells (an empty
cell decodes to `[]` resp. `\x7b\x7d`); a decode failure raises (`none`). -/
def load_rag_row (acc : List (Str × JVal)) (row : RagRow) :
    Option (List (Str × JVal)) :=
  let contexts? : Option JVal :=
    if row.contexts.isEmpty then some (.arr .nil) else json_loads row.contexts
  let raw? : Option JVal :=
    if row.raw.isEmpty then some (.obj .nil) else json_loads row.raw
  match contexts?, raw? with
  | some cv, some rv =>
    some (dictInsert acc row.sample_id
      (.obj (.cons "answer".data (.str row.answer)
        (.cons "contexts".data cv
          (.cons "raw".data rv .nil)))))
  | _, _ => none

def load_rag_results (rows : List RagRow) : Option (List (Str × JVal)) :=
  rows.foldlM load_rag_row []

/-- A Python datetime, as a wall-clock second count since the epoch of its
own calendar reading plus an optional utcoffset in seconds (`none` models a
naive datetime). -/
structure PyDateTime where
  wall : ℤ
  tz : Option ℤ
deriving Repr, DecidableEq

/-- Days from civil date (proleptic Gregorian), the standard calendar
conversion used to give concrete datetimes a wall value. -/
def daysFromCivil (y m d : ℤ) : ℤ :=
  let y2 := if m ≤ 2 then y - 1 else y
  let era := (if 0 ≤ y2 then y2 else y2 - 399) / 400
  let yoe := y2 - era * 400
  let mp := (m + 9) % 12
  let doy := (153 * mp + 2) / 5 + d - 1
  let doe := yoe * 365 + yoe / 4 - yoe / 100 + doy
  era * 146097 + doe - 719468

/-- Build a datetime from a civil date, a time of day, and an optional
utcoffset in seconds. -/
def mkDT (y m d hh mi ss : ℤ) (tz : Option ℤ) : PyDateTime :=
  ⟨daysFromCivil y m d * 86400 + hh * 3600 + mi * 60 + ss, tz⟩

/-- `datetime.min`, the sort fallback for missing timestamps. -/
def pyDatetimeMin : PyDateTime := mkDT 1 1 1 0 0 0 none

/-- `normalize_datetime` from `evals/aggregate_evals.py`: convert an aware
datetime to UTC (`astimezone(timezone.utc)` shifts the wall reading by the
utcoffset) and drop the offset; keep a naive one unchanged. -/
def normalize_datetime : Option PyDateTime → Option PyDateTime
  | none => none
  | some dt =>
    match dt.tz with
    | some off => some ⟨dt.wall - off, none⟩
    | none => some dt

/-- Civil date from a day count (inverse of `daysFromCivil`). -/
def civilFromDays (z0 : ℤ) : ℤ × ℤ × ℤ :=
  let z := z0 + 719468
  let era := (if 0 ≤ z then z else z - 146096) / 146097
  let doe := z - era * 146097
  let yoe := (doe - doe / 1460 + doe / 36524 - doe / 146096) / 365
  let doy := doe - (365 * yoe + yoe / 4 - yoe / 100)
  let mp := (5 * doy + 2) / 153
  let d := doy - (153 * mp + 2) / 5 + 1
  let m := mp + (if mp < 10 then 3 else -9)
  (yoe + era * 400 + (if m ≤ 2 then 1 else 0), m, d)

/-- Zero-padded two-digit rendering. -/
def pad2 (n : ℤ) : Str :=
  if n < 10 then '0' :: natDec n.toNat else natDec n.toNat

/-- Zero-padded four-digit year rendering. -/
def pad4 (n : ℤ) : Str :=
  let s := natDec n.toNat
  List.replicate (4 - s.length) '0' ++ s

/-- `datetime.isoformat()` of a naive datetime with whole seconds. -/
def isoformatDT (dt : PyDateTime) : Str :=
  let days := Int.ediv dt.wall 86400
  let secs := Int.emod dt.wall 86400
  let c := civilFromDays days
  pad4 c.1 ++ "-".data ++ pad2 c.2.1 ++ "-".data ++ pad2 c.2.2 ++ "T".data ++
    pad2 (secs / 3600) ++ ":".data ++ pad2 (secs / 60 % 60) ++ ":".data ++ pad2 (secs % 60)

/-- `strftime('%Y-%m-%d %H:%M')` of a naive datetime. -/
def strftimeShort (dt : PyDateTime) : Str :=
  let days := Int.ediv dt.wall 86400
  let secs := Int.emod dt.wall 86400
  let c := civilFromDays days
  pad4 c.1 ++ "-".data ++ pad2 c.2.1 ++ "-".data ++ pad2 c.2.2 ++ " ".data ++
    pad2 (secs / 3600) ++ ":".data ++ pad2 (secs / 60 % 60)

/-- Lexicographic string comparison (Python `str` ordering by code point). -/
def strLeB : Str → Str → Bool
  | [], _ => true
  | _ :: _, [] => false
  | a :: as, b :: bs => if a = b then strLeB as bs else decide (a < b)

/-- The pieces of a loaded `summary.json` consumed by
`extract_metric_data`.  `parsed_run_timestamp` models the result of
`datetime.fromisoformat(run_timestamp.replace('Z', '+00:00'))` (the stdlib
parser is not re-implemented; `none` models a ValueError), `file_mtime` the
naive datetime `datetime.fromtimestamp(path.stat().st_mtime)` in epoch
seconds.  A `none` inside a stats list models a JSON null mean. -/
structure SummaryIn where
  evaluation_run_name : Option Str
  run_timestamp : Str
  parsed_run_timestamp : Option PyDateTime
  file_mtime : Option ℤ
  metrics : List (Str × List (Str × Option ℚ))
deriving Repr

/-- Timestamp resolution of `extract_metric_data` before normalization: a
truthy, non-`'N/A'` timestamp string is parsed (falling back to
`file_mtime` on a parse error), otherwise `file_mtime` is used. -/
def summaryTimestamp (s : SummaryIn) : Option PyDateTime :=
  if s.run_timestamp ≠ [] ∧ s.run_timestamp ≠ "N/A".data then
    match s.parsed_run_timestamp with
    | some t => some t
    | none => s.file_mtime.map (fun m => ⟨m, none⟩)
  else s.file_mtime.map (fun m => ⟨m, none⟩)

/-- The unique run identifier `run_name + '_' + timestamp.isoformat()`. -/
def runIdOf (run_name : Str) (ts : Option PyDateTime) : Str :=
  match ts with
  | some t => run_name ++ "_".data ++ isoformatDT t
  | none => run_name

/-- The display name `run_name + newline + short timestamp`. -/
def displayOf (run_name : Str) (ts : Option PyDateTime) : Str :=
  match ts with
  | some t => run_name ++ "\n".data ++ strftimeShort t
  | none => run_name

/-- Append an entry to the list of a defaultdict-of-lists. -/
def mdAppend {β : Type} (md : List (Str × List β)) (name : Str) (e : β) :
    List (Str × List β) :=
  match dictFind md name with
  | some l => dictInsert md name (l ++ [e])
  | none => md ++ [(name, [e])]

/-- Sort key comparison of `extract_metric_data`: by timestamp with
`datetime.min` substituted for a missing one, then by run id string.  All
compared timestamps are already normalized (naive), so comparing wall
values models Python datetime comparison. -/
def tsRunLe (a b : Option PyDateTime × Str) : Bool :=
  let ta := (a.1.getD pyDatetimeMin).wall
  let tb := (b.1.getD pyDatetimeMin).wall
  if ta = tb then strLeB a.2 b.2 else decide (ta < tb)

/-- First-occurrence deduplication with an accumulator of seen keys. -/
def dedupFirstAux {α : Type} [BEq α] (seen : List α) : List α → List α
  | [] => []
  | x :: tl =>
    if seen.contains x then dedupFirstAux seen tl
    else x :: dedupFirstAux (x :: seen) tl

/-- First-occurrence deduplication (model of accumulating a Python set). -/
def dedupFirst {α : Type} [BEq α] : List α → List α := dedupFirstAux []

/-- Per-summary accumulation step of `extract_metric_data`, producing the
updated `(metric_data, run ids with timestamps, run_id_to_display)` state. -/
def emdStep
    (st : List (Str × List (Str × Option PyDateTime × ℚ)) ×
      List (Str × Option PyDateTime) × List (Str × Str))
    (s : SummaryIn) :
    List (Str × List (Str × Option PyDateTime × ℚ)) ×
      List (Str × Option PyDateTime) × List (Str × Str) :=
  let run_name := s.evaluation_run_name.getD "unknown".data
  let timestamp := normalize_datetime (summaryTimestamp s)
  let run_id := runIdOf run_name timestamp
  let display := displayOf run_name timestamp
  let md := s.metrics.foldl
    (fun md p =>
      match dictFind p.2 "mean".data with
      | some (some mean) => mdAppend md p.1 (run_id, timestamp, mean)
      | _ => md)
    st.1
  (md, st.2.1 ++ [(run_id, timestamp)], dictInsert st.2.2 run_id display)

/-- `extract_metric_data` from `evals/aggregate_evals.py`: per-summary
timestamps are resolved and normalized to naive before being stored; each
metric's series is sorted by `(timestamp or datetime.min, run_id)`, and the
run ids are ordered the same way.  Returns
`(metric_data, ordered_runs, run_id_to_display)`. -/
def extract_metric_data (summaries : List SummaryIn) :
    List (Str × List (Str × Option PyDateTime × ℚ)) × List Str × List (Str × Str) :=
  let st := summaries.foldl emdStep ([], [], [])
  let metric_data := st.1.map
    (fun p => (p.1, sortLe (fun a b => tsRunLe ((a.2.1, a.1)) ((b.2.1, b.1))) p.2))
  let id_ts := dedupFirst st.2.1
  let ordered_runs := (sortLe (fun a b => tsRunLe ((a.2, a.1)) ((b.2, b.1))) id_ts).map
    Prod.fst
  (metric_data, ordered_runs, st.2.2)

/-- A row of `evaluation_results.csv` as a pandas record: the fixed meta
columns, plus the flattened `metric_stat` columns as an association list
(the DataFrame's column axis).  NaN cells are modelled by absence from
`stats` / `none`. -/
structure CsvRow where
  evaluation_run_name : Str
  mode : Str
  run_timestamp : Str
  num_validation_questions : Option ℤ
  notes : Str
  stats : List (Str × ℚ)
deriving Repr, DecidableEq

/-- A summary dict in the aggregator's internal format (the shape produced
by `collect_local_results` / `dataframe_to_summaries`). -/
structure RunSummary where
  evaluation_run_name : Str
  mode : Str
  run_timestamp : Str
  notes : Str
  num_validation_questions : Option ℤ
  metrics : List (Str × List (Str × ℚ))
  file_mtime : Option PyDateTime
deriving Repr

/-- `summaries_to_dataframe` from `evals/aggregate_evals.py`: one row per
summary, timestamp falling back to the file mtime and then to `'N/A'`,
metrics flattened to `metric_stat` columns via dict assignment. -/
def summaries_to_dataframe (summaries : List RunSummary) : List CsvRow :=
  summaries.map (fun s =>
    let timestamp_str :=
      if s.run_timestamp ≠ [] then s.run_timestamp
      else
        match s.file_mtime with
        | some m => isoformatDT m
        | none => []
    ⟨s.evaluation_run_name, s.mode,
      (if timestamp_str ≠ [] then timestamp_str else "N/A".data),
      s.num_validation_questions, s.notes,
      s.metrics.foldl
        (fun acc p =>
          p.2.foldl (fun acc2 q => dictInsert acc2 (p.1 ++ "_".data ++ q.1) q.2) acc)
        []⟩)

/-- The stat names recognized when rebuilding summaries from CSV columns. -/
def statWhitelist : List Str :=
  ["mean".data, "std".data, "median".data, "min".data, "max".data,
    "ci_lower".data, "ci_upper".data]

/-- Python `col.rsplit('_', 1)`: split at the last underscore, if any. -/
def rsplitUnderscore : Str → Option (Str × Str)
  | [] => none
  | c :: tl =>
    match rsplitUnderscore tl with
    | some (pre, post) => some (c :: pre, post)
    | none => if c = '_' then some ([], tl) else none

/-- The candidate metric names derived from all stat columns of the table
(the head of each column's `rsplit('_', 1)`); a Python set, modelled as
first-occurrence order. -/
def dfMetricNames (df : List CsvRow) : List Str :=
  dedupFirst
    (((df.map (fun r => r.stats.map Prod.fst)).flatten).filterMap
      (fun col => (rsplitUnderscore col).map Prod.fst))

/-- `dataframe_to_summaries` from `evals/aggregate_evals.py`: rebuild one
summary per row; for every candidate metric name, collect the whitelisted
stats present in the row; empty stat sets are dropped. -/
def dataframe_to_summaries (df : List CsvRow) : List RunSummary :=
  let names := dfMetricNames df
  df.map (fun row =>
    ⟨row.evaluation_run_name, row.mode, row.run_timestamp, row.notes,
      row.num_validation_questions,
      names.filterMap (fun mname =>
        let stats := statWhitelist.filterMap (fun st =>
          (dictFind row.stats (mname ++ "_".data ++ st)).map (fun v => (st, v)))
        if stats.isEmpty then none else some (mname, stats)),
      none⟩)

/-- `drop_duplicates(keep='last')` of pandas: keep each row whose key does
not recur later, preserving positions of the kept rows. -/
def dedupKeepLast {α κ : Type} [BEq κ] (key : α → κ) : List α → List α
  | [] => []
  | x :: tl =>
    if (tl.map key).contains (key x) then dedupKeepLast key tl
    else x :: dedupKeepLast key tl

/-- The dedup identity of a table row: `(evaluation_run_name,
run_timestamp)`. -/
def rowKey (r : CsvRow) : Str × Str := (r.evaluation_run_name, r.run_timestamp)

/-- `save_evaluation_csv` from `evals/aggregate_evals.py` (its returned
`combined_df`): with a non-empty existing table, concatenate, drop
duplicate `(run name, timestamp)` keys keeping the last occurrence, and
sort by the timestamp string; otherwise the new rows are written as-is
(in particular without deduplication).  The sort is modelled as stable;
pandas leaves tie order unspecified, which no claim observes. -/
def save_evaluation_csv (summaries : List RunSummary) (existing_df : Option (List CsvRow)) :
    List CsvRow :=
  let new_df := summaries_to_dataframe summaries
  match existing_df with
  | some edf =>
    if 0 < edf.length then
      sortLe (fun a b => strLeB a.run_timestamp b.run_timestamp)
        (dedupKeepLast rowKey (edf ++ new_df))
    else new_df
  | none => new_df

/-- The `(run_name, run_timestamp)` identity under which
`aggregate_local_results` filters newly collected summaries, with the
file-mtime fallback for a missing timestamp. -/
def newSummaryKey (s : RunSummary) : Str × Str :=
  let ts :=
    if s.run_timestamp ≠ [] then s.run_timestamp
    else
      match s.file_mtime with
      | some m => isoformatDT m
      | none => []
  (s.evaluation_run_name, ts)

/-- The merging part of `aggregate_local_results` from
`evals/aggregate_evals.py` (plot and report generation aside): load the
existing table, convert it back to summaries, discard newly collected
summaries whose `(run name, timestamp)` key is already present, and save
the combined summaries against the existing table. -/
def aggregate_local_results_merge (new_summaries : List RunSummary)
    (existing_df : Option (List CsvRow)) : List CsvRow :=
  if new_summaries.isEmpty then existing_df.getD []
  else
    match existing_df with
    | some edf =>
      let existing_summaries := dataframe_to_summaries edf
      let existing_run_ids := existing_summaries.map
        (fun s => (s.evaluation_run_name, s.run_timestamp))
      let unique_new := new_summaries.filter
        (fun s => !(existing_run_ids.contains (newSummaryKey s)))
      save_evaluation_csv (existing_summaries ++ unique_new) (some edf)
    | none => save_evaluation_csv new_summaries none

/-- The judge payload shapes for which `BinaryCorrectnessMetric._grade_one`
completes without an uncaught exception: either the extracted JSON fails to
decode (the caught fallback), or it decodes to a dict whose `score` entry
(defaulting to 0) converts with `float`. -/
def binaryPayloadOk (text : Str) : Prop :=
  match json_loads (extract_json_from_text text) with
  | none => True
  | some v =>
    match v with
    | .obj fs => (pyFloat ((fs.find "score".data).getD (.int 0))).isSome = true
    | _ => False

/- Node-count measure of a JSON value: the recursion fuel the parser
consumes on its serialization. -/
mutual
def jnodes : JVal → ℕ
  | .null | .bool _ | .int _ | .str _ => 1
  | .arr xs => 1 + jnodesA xs
  | .obj fs => 1 + jnodesO fs
def jnodesA : JArr → ℕ
  | .nil => 0
  | .cons x tl => 1 + jnodes x + jnodesA tl
def jnodesO : JObj → ℕ
  | .nil => 0
  | .cons _ v tl => 1 + jnodes v + jnodesO tl
end

-- ======================================================================
-- Theorems
-- ======================================================================

theorem insertLe_perm {α : Type} (le : α → α → Bool) (a : α) (l : List α) :
    (insertLe le a l).Perm (a :: l) := by
  induction l with
  | nil => simp [insertLe]
  | cons b bs ih =>
    simp only [insertLe]
    split
    · exact List.Perm.refl _
    · exact (ih.cons b).trans (List.Perm.swap a b bs)

theorem sortLe_perm {α : Type} (le : α → α → Bool) (l : List α) :
    (sortLe le l).Perm l := by
  induction l with
  | nil => simp [sortLe]
  | cons a as ih => exact (insertLe_perm le a (sortLe le as)).trans (ih.cons a)

theorem insertLe_of_forall {α : Type} (le : α → α → Bool) (a : α) (l : List α)
    (h : ∀ b ∈ l, le a b = true) : insertLe le a l = a :: l := by
  cases l with
  | nil => rfl
  | cons b bs => simp [insertLe, h b (by simp)]

theorem sortLe_of_pairwise {α : Type} (le : α → α → Bool) (l : List α)
    (h : l.Pairwise (fun x y => le x y = true)) : sortLe le l = l := by
  induction l with
  | nil => rfl
  | cons a as ih =>
    rw [List.pairwise_cons] at h
    simp only [sortLe, ih h.2]
    exact insertLe_of_forall le a as h.1

theorem lookup_eq_of_key {α : Type} (ps : List (ℕ × α)) (k : ℕ) (w : α)
    (hall : ∀ p ∈ ps, p.1 = k → p.2 = w) (hmem : ∃ p ∈ ps, p.1 = k) :
    ps.lookup k = some w := by
  induction ps with
  | nil => simp at hmem
  | cons p ps ih =>
    obtain ⟨pk, pv⟩ := p
    by_cases hp : pk = k
    · have hv : pv = w := hall (pk, pv) (by simp) hp
      simp [List.lookup, hp, hv]
    · have hk : (k == pk) = false := by
        simp only [beq_eq_false_iff_ne, ne_eq]
        exact fun h => hp h.symm
      simp only [List.lookup, hk, cond_false]
      exact ih (fun q hq => hall q (by simp [hq]))
        (by
          obtain ⟨q, hq, hqk⟩ := hmem
          rcases List.mem_cons.mp hq with h1 | h2
          · exact absurd (by rw [h1] at hqk; exact hqk) hp
          · exact ⟨q, h2, hqk⟩)

theorem filterMap_eq_map_of_some {α β : Type} (f : α → Option β) (g : α → β)
    (l : List α) (h : ∀ a ∈ l, f a = some (g a)) : l.filterMap f = l.map g := by
  induction l with
  | nil => rfl
  | cons a tl ih =>
    simp only [List.filterMap_cons, h a (by simp), List.map_cons]
    exact congrArg _ (ih (fun b hb => h b (by simp [hb])))

theorem map_getD_range {α : Type} (l : List α) (d : α) :
    (List.range l.length).map (fun i => l.getD i d) = l := by
  apply List.ext_getElem (by simp)
  intro i h1 h2
  simp only [List.getElem_map, List.getElem_range]
  exact List.getD_eq_getElem l d h2

theorem asyncGather_of_perm {α : Type} [Inhabited α] (tasks : List α) (order : List ℕ)
    (h : order.Perm (List.range tasks.length)) : asyncGather tasks order = tasks := by
  unfold asyncGather
  have hlookup : ∀ i ∈ List.range tasks.length,
      (order.filterMap (fun i => (tasks[i]?).map (fun v => (i, v)))).lookup i =
        some (tasks.getD i default) := by
    intro i hi
    have hilt : i < tasks.length := List.mem_range.mp hi
    apply lookup_eq_of_key
    · intro p hp hpk
      rcases List.mem_filterMap.mp hp with ⟨j, _, hj⟩
      cases htj : tasks[j]? with
      | none => rw [htj] at hj; simp at hj
      | some v =>
        rw [htj] at hj
        have hj' : (j, v) = p := by simpa using hj
        subst hj'
        simp only at hpk
        subst hpk
        simp only
        rw [List.getD_eq_getElem tasks default hilt]
        rw [List.getElem?_eq_getElem hilt] at htj
        exact ((Option.some.injEq _ _).mp htj).symm
    · refine ⟨(i, tasks.getD i default), ?_, rfl⟩
      apply List.mem_filterMap.mpr
      refine ⟨i, (h.mem_iff).mpr hi, ?_⟩
      simp [List.getElem?_eq_getElem hilt, List.getD_eq_getElem tasks default hilt]
  rw [filterMap_eq_map_of_some _ (fun i => tasks.getD i default) _ hlookup]
  exact map_getD_range tasks default

/-- C9: `aggregate_metric` applied to an empty score list returns a summary
whose mean, std, median, min, max, ci_lower and ci_upper are all NaN
(modelled `none`), for every model of the external sqrt and RNG and every
confidence level; the empty branch precedes every computation, so nothing
can raise. -/
theorem C9_aggregate_metric_empty (sqrtF : ℚ → ℚ) (draws : ℕ → ℕ → ℕ) (ci : ℚ) :
    aggregate_metric sqrtF draws [] ci = ⟨none, none, none, none, none, none, none⟩ := rfl

/-- C8: for every input sample list and every completion-order permutation
of the per-sample generation tasks, `generate_batch` returns the output of
`samples[i]`'s task at index `i`. -/
theorem C8_generate_batch_order {α β : Type} [Inhabited β] (generate : α → β)
    (samples : List α) (max_concurrency : ℕ) (order : List ℕ)
    (h : order.Perm (List.range samples.length)) :
    generate_batch generate samples max_concurrency order = samples.map generate := by
  unfold generate_batch
  exact asyncGather_of_perm (samples.map generate) order (by simpa using h)

/-- Witness for C8 at a concrete reversed completion order. -/
theorem C8_generate_batch_order_witness :
    generate_batch (fun n : ℕ => n + 10) [5, 6, 7] 2 [2, 0, 1] = [15, 16, 17] :=
  (C8_generate_batch_order (fun n : ℕ => n + 10) [5, 6, 7] 2 [2, 0, 1] (by decide)).trans rfl

theorem JArr.toList_ofList (l : List JVal) : (JArr.ofList l).toList = l := by
  induction l with
  | nil => rfl
  | cons x tl ih => simp [JArr.ofList, JArr.toList, ih]

theorem gatherJoin_eq_some {α : Type} (ol : List (Option α)) (es : List α)
    (h : gatherJoin ol = some es) : ol = es.map some := by
  induction ol generalizing es with
  | nil =>
    simp only [gatherJoin, Option.some.injEq] at h
    subst h
    rfl
  | cons o tl ih =>
    cases o with
    | none => simp [gatherJoin] at h
    | some a =>
      simp only [gatherJoin] at h
      cases htl : gatherJoin tl with
      | none => rw [htl] at h; simp at h
      | some es2 =>
        rw [htl] at h
        have he : a :: es2 = es := by simpa using h
        subst he
        simp [ih es2 htl]

theorem check_one_fact_spec (judge : Str → JVal) (sample : EvalSample)
    (output : RagOutput) (i : ℕ) (fa : JVal) (e : FactEval)
    (h : check_one_fact judge sample output i fa = some e) :
    e.fact_index = i ∧ e.atomic_fact = fa := by
  unfold check_one_fact at h
  cases hx : extract_text_content (judge (checkPrompt sample output fa)) with
  | none => rw [hx] at h; exact absurd h (by simp)
  | some text =>
    rw [hx] at h
    dsimp only at h
    cases hl : json_loads (extract_json_from_text text) with
    | none =>
      rw [hl] at h
      dsimp only at h
      rw [← (Option.some.injEq _ _).mp h]
      exact ⟨rfl, rfl⟩
    | some v =>
      rw [hl] at h
      dsimp only at h
      cases hg : jget v "found".data (.bool false) with
      | none => rw [hg] at h; exact absurd h (by simp)
      | some fv =>
        rw [hg] at h
        dsimp only at h
        cases hg2 : jget v "explanation".data (.str []) with
        | none => rw [hg2] at h; exact absurd h (by simp)
        | some ev =>
          rw [hg2] at h
          dsimp only at h
          rw [← (Option.some.injEq _ _).mp h]
          exact ⟨rfl, rfl⟩

/-- C2: for every sample whose extraction phase yields zero atomic facts
(either because the extraction response fails to decode as JSON, or because
the decoded `atomic_facts` value is empty/falsy), `AtomicCorrectnessMetric`
returns a record with score exactly 0.0 whose explanation flags the
extraction failure, and issues no verification judge calls for the sample
(the emitted call list is empty). -/
theorem C2_atomic_no_facts (judge : Str → JVal) (order : List ℕ)
    (sample : EvalSample) (output : RagOutput) (text : Str) (fv : JVal)
    (htext : extract_text_content (judge (extractPrompt sample)) = some text)
    (hfv : (json_loads (extract_json_from_text text) = none ∧ fv = JVal.arr .nil) ∨
      (∃ v, json_loads (extract_json_from_text text) = some v ∧
        jget v "atomic_facts".data (.arr .nil) = some fv))
    (hempty : pyTruthy fv = false) :
    atomic_grade_one judge order sample output =
      some (⟨sample.sample_id, "correctness_atomic".data, 0,
        .extraction_failed 0 0
          "Failed to extract atomic facts from reference answer".data []⟩, []) := by
  unfold atomic_grade_one
  rw [htext]
  dsimp only
  rcases hfv with ⟨hnone, hfveq⟩ | ⟨v, hsome, hget⟩
  · rw [hnone]
    subst hfveq
    dsimp only
    rw [hempty]
    rfl
  · rw [hsome]
    dsimp only
    rw [hget]
    dsimp only
    rw [hempty]
    rfl

/-- Witness for C2: a judge whose extraction response contains no JSON at
all; the score is 0.0 and no verification calls are issued. -/
theorem C2_atomic_no_facts_witness :
    atomic_grade_one (fun _ => .str "no json here".data) [0]
      ⟨"s1".data, "q".data, "ref".data, none, none, []⟩ ⟨"ans".data, [], .null⟩ =
      some (⟨"s1".data, "correctness_atomic".data, 0,
        .extraction_failed 0 0
          "Failed to extract atomic facts from reference answer".data []⟩, []) :=
  C2_atomic_no_facts (fun _ => .str "no json here".data) [0]
    ⟨"s1".data, "q".data, "ref".data, none, none, []⟩ ⟨"ans".data, [], .null⟩
    "no json here".data (JVal.arr .nil) rfl (Or.inl ⟨rfl, rfl⟩) rfl

/-- C1: for every sample whose extraction phase yields a non-empty list of
atomic facts, every completion order of the concurrent per-fact
verification calls, and every gathered set of verdicts, `_grade_one`'s
score is exactly (number of verdicts with found = true) / (number of
extracted facts), and the attached `fact_evaluations` list is exactly the
verdict list in original extraction order (its `fact_index` projections are
`0, 1, ..., n-1`), regardless of the completion order. -/
theorem C1_atomic_score_and_order (judge : Str → JVal) (order : List ℕ)
    (sample : EvalSample) (output : RagOutput) (text : Str) (facts : List JVal)
    (evals : List FactEval)
    (htext : extract_text_content (judge (extractPrompt sample)) = some text)
    (hfacts : ∃ v, json_loads (extract_json_from_text text) = some v ∧
      jget v "atomic_facts".data (.arr .nil) = some (.arr (JArr.ofList facts)))
    (hne : facts ≠ [])
    (hperm : order.Perm (List.range facts.length))
    (heval : gatherJoin (facts.enum.map
      (fun p => check_one_fact judge sample output p.1 p.2)) = some evals) :
    atomic_grade_one judge order sample output =
      some (⟨sample.sample_id, "correctness_atomic".data,
        ((evals.filter (fun e => e.found)).length : ℚ) / (facts.length : ℚ),
        .evaluated facts.length (evals.filter (fun e => e.found)).length evals⟩,
        facts.enum.map (fun p => checkPrompt sample output p.2)) ∧
      evals.map (fun e => e.fact_index) = List.range facts.length := by
  obtain ⟨v, hsome, hget⟩ := hfacts
  have tasksEq : facts.enum.map (fun p => check_one_fact judge sample output p.1 p.2) =
      evals.map some := gatherJoin_eq_some _ _ heval
  have hlen : evals.length = facts.length := by
    have := congrArg List.length tasksEq
    simpa using this.symm
  have hidx : ∀ i (hi : i < evals.length), (evals.get ⟨i, hi⟩).fact_index = i := by
    intro i hi
    have hif : i < facts.enum.length := by simpa [hlen] using hi
    have h1 := congrArg (fun l => l.getD i (none : Option FactEval)) tasksEq
    simp only [List.getD_eq_getElem?_getD, List.getElem?_map] at h1
    rw [List.getElem?_eq_getElem hif, List.getElem?_eq_getElem hi] at h1
    simp only [Option.map_some', Option.getD_some] at h1
    have henum : facts.enum[i] = (i, facts.get ⟨i, by simpa using hif⟩) := by
      simp [List.getElem_enum]
    rw [henum] at h1
    have := check_one_fact_spec judge sample output i
      (facts.get ⟨i, by simpa using hif⟩) (evals.get ⟨i, hi⟩) h1
    simpa using this.1
  have hmap : evals.map (fun e => e.fact_index) = List.range facts.length := by
    apply List.ext_getElem (by simp [hlen])
    intro i h1 h2
    simp only [List.getElem_map, List.getElem_range]
    exact hidx i (by simpa using h1)
  have hpair : evals.Pairwise (fun x y => (decide (x.fact_index ≤ y.fact_index)) = true) := by
    rw [List.pairwise_iff_getElem]
    intro i j hi hj hij
    have e1 : (evals.get ⟨i, hi⟩).fact_index = i := hidx i hi
    have e2 : (evals.get ⟨j, hj⟩).fact_index = j := hidx j hj
    simp only [List.get_eq_getElem] at e1 e2
    simp [e1, e2, Nat.le_of_lt hij]
  have hsort : sortLe (fun a b => decide (a.fact_index ≤ b.fact_index)) evals = evals :=
    sortLe_of_pairwise _ _ hpair
  have hptrue : pyTruthy (JVal.arr (JArr.ofList facts)) = true := by
    cases facts with
    | nil => exact absurd rfl hne
    | cons a tl => rfl
  have hiter : pyIter (JVal.arr (JArr.ofList facts)) = some facts := by
    simp [pyIter, JArr.toList_ofList]
  have hpos : 0 < facts.length := by
    cases facts with
    | nil => exact absurd rfl hne
    | cons a tl => simp
  refine ⟨?_, hmap⟩
  unfold atomic_grade_one
  rw [htext]
  dsimp only
  rw [hsome]
  dsimp only
  rw [hget]
  dsimp only
  rw [hptrue]
  simp only [Bool.true_eq_false, if_false]
  rw [hiter]
  dsimp only
  rw [asyncGather_of_perm _ order (by simpa using hperm)]
  rw [heval]
  dsimp only
  rw [hsort]
  rw [if_pos hpos]

/-- Witness for C1: a judge answering with a two-fact extraction payload
(and a `found: true` verification payload from the same response), with the
verification calls completing in reversed order. -/
theorem C1_atomic_score_and_order_witness :
    atomic_grade_one
      (fun _ => .str "\x7b\"atomic_facts\": [\"f1\", \"f2\"], \"found\": true\x7d".data)
      [1, 0] ⟨"s1".data, "q".data, "ref".data, none, none, []⟩ ⟨"ans".data, [], .null⟩ =
      some (⟨"s1".data, "correctness_atomic".data,
        ((([⟨0, JVal.str "f1".data, true, JVal.str []⟩,
            ⟨1, JVal.str "f2".data, true, JVal.str []⟩] : List FactEval).filter
              (fun e => e.found)).length : ℚ) /
          (([JVal.str "f1".data, JVal.str "f2".data] : List JVal).length : ℚ),
        .evaluated ([JVal.str "f1".data, JVal.str "f2".data] : List JVal).length
          (([⟨0, JVal.str "f1".data, true, JVal.str []⟩,
            ⟨1, JVal.str "f2".data, true, JVal.str []⟩] : List FactEval).filter
              (fun e => e.found)).length
          [⟨0, JVal.str "f1".data, true, JVal.str []⟩,
            ⟨1, JVal.str "f2".data, true, JVal.str []⟩]⟩,
        ([JVal.str "f1".data, JVal.str "f2".data] : List JVal).enum.map
          (fun p => checkPrompt ⟨"s1".data, "q".data, "ref".data, none, none, []⟩
            ⟨"ans".data, [], .null⟩ p.2)) ∧
      ([⟨0, JVal.str "f1".data, true, JVal.str []⟩,
        ⟨1, JVal.str "f2".data, true, JVal.str []⟩] : List FactEval).map
          (fun e => e.fact_index) =
        List.range ([JVal.str "f1".data, JVal.str "f2".data] : List JVal).length :=
  C1_atomic_score_and_order
    (fun _ => .str "\x7b\"atomic_facts\": [\"f1\", \"f2\"], \"found\": true\x7d".data)
    [1, 0] ⟨"s1".data, "q".data, "ref".data, none, none, []⟩ ⟨"ans".data, [], .null⟩
    "\x7b\"atomic_facts\": [\"f1\", \"f2\"], \"found\": true\x7d".data
    [JVal.str "f1".data, JVal.str "f2".data]
    [⟨0, JVal.str "f1".data, true, JVal.str []⟩, ⟨1, JVal.str "f2".data, true, JVal.str []⟩]
    rfl
    ⟨.obj (.cons "atomic_facts".data
        (.arr (.cons (.str "f1".data) (.cons (.str "f2".data) .nil)))
        (.cons "found".data (.bool true) .nil)), rfl, rfl⟩
    (List.cons_ne_nil _ _) (by decide) rfl

theorem toNat_ofNat_valid (m : ℕ) (h : m < 55296) : (Char.ofNat m).toNat = m := by
  have hv : Nat.isValidChar m := Or.inl h
  simp only [Char.ofNat, hv, dif_pos, Char.ofNatAux, Char.toNat]
  rfl

theorem toNat_ofNat_valid_hi (m : ℕ) (h1 : 57344 ≤ m) (h2 : m < 1114112) :
    (Char.ofNat m).toNat = m := by
  have hv : Nat.isValidChar m := Or.inr ⟨h1, h2⟩
  simp only [Char.ofNat, hv, dif_pos, Char.ofNatAux, Char.toNat]
  rfl

theorem charEq_iff_toNat (a b : Char) : a = b ↔ a.toNat = b.toNat := by
  constructor
  · intro h; rw [h]
  · intro h; exact Char.eq_of_val_eq (UInt32.ext h)

theorem char_toNat_lt (c : Char) : c.toNat < 1114112 := by
  rcases c.valid with h | ⟨_, h2⟩
  · exact Nat.lt_trans h (by norm_num)
  · exact h2

theorem char_toNat_not_surrogate (c : Char) : c.toNat < 55296 ∨ 57344 ≤ c.toNat := by
  rcases c.valid with h | ⟨h1, _⟩
  · exact Or.inl h
  · exact Or.inr h1

theorem ofNat_toNat_char (c : Char) : Char.ofNat c.toNat = c := by
  rw [charEq_iff_toNat]
  rcases char_toNat_not_surrogate c with h | h
  · exact toNat_ofNat_valid _ h
  · exact toNat_ofNat_valid_hi _ h (char_toNat_lt c)

theorem digitCh_toNat (d : ℕ) (h : d < 10) : (digitCh d).toNat = 48 + d :=
  toNat_ofNat_valid (48 + d) (by omega)

theorem isDigitCh_digitCh (d : ℕ) (h : d < 10) : isDigitCh (digitCh d) = true := by
  simp [isDigitCh, digitCh_toNat d h]
  omega

theorem hexDigitCh_toNat (d : ℕ) (h : d < 16) : (hexDigitCh d).toNat =
    if d < 10 then 48 + d else 87 + d := by
  unfold hexDigitCh
  split
  · rw [toNat_ofNat_valid _ (by omega)]
  · rw [toNat_ofNat_valid _ (by omega)]

theorem hexVal_hexDigitCh (d : ℕ) (h : d < 16) : hexVal (hexDigitCh d) = some d := by
  unfold hexVal
  rw [hexDigitCh_toNat d h]
  by_cases hd : d < 10
  · rw [if_pos hd, if_pos (by omega)]
    simp
  · rw [if_neg hd, if_neg (by omega), if_pos (by omega)]
    simp only [Option.some.injEq]
    omega

theorem parseHex4_hex4 (n : ℕ) (h : n < 65536) (rest : Str) :
    parseHex4 (hex4 n ++ rest) = some (n, rest) := by
  unfold hex4 parseHex4
  simp only [List.cons_append, List.nil_append]
  rw [hexVal_hexDigitCh _ (by omega), hexVal_hexDigitCh _ (by omega),
    hexVal_hexDigitCh _ (by omega), hexVal_hexDigitCh _ (by omega)]
  simp only [Option.bind_eq_bind, Option.some_bind]
  congr 2
  omega

theorem natDecAux_append : ∀ (f n : ℕ) (acc : Str),
    natDecAux f n acc = natDecAux f n [] ++ acc := by
  intro f
  induction f with
  | zero => intro n acc; rfl
  | succ f ih =>
    intro n acc
    simp only [natDecAux]
    by_cases h : n < 10
    · simp [h]
    · simp only [if_neg h]
      rw [ih (n / 10) (digitCh (n % 10) :: acc), ih (n / 10) [digitCh (n % 10)]]
      simp

theorem natDecAux_step (f n : ℕ) (acc : Str) (h : ¬ n < 10) :
    natDecAux (f + 1) n acc = natDecAux f (n / 10) (digitCh (n % 10) :: acc) := by
  show (if n < 10 then digitCh n :: acc
    else natDecAux f (n / 10) (digitCh (n % 10) :: acc)) = _
  rw [if_neg h]

theorem natDecAux_fuel : ∀ (n f f' : ℕ), n < 10 ^ f → n < 10 ^ f' →
    natDecAux (f + 1) n [] = natDecAux (f' + 1) n [] := by
  intro n
  induction n using Nat.strong_induction_on with
  | _ n ih =>
    intro f f' hf hf'
    by_cases h : n < 10
    · show (if n < 10 then _ else _) = (if n < 10 then _ else _)
      rw [if_pos h, if_pos h]
    · have hf1 : f ≠ 0 := by
        intro h0; rw [h0] at hf; simp at hf; omega
      have hf'1 : f' ≠ 0 := by
        intro h0; rw [h0] at hf'; simp at hf'; omega
      obtain ⟨g, rfl⟩ : ∃ g, f = g + 1 := ⟨f - 1, by omega⟩
      obtain ⟨g', rfl⟩ : ∃ g, f' = g + 1 := ⟨f' - 1, by omega⟩
      rw [natDecAux_step (g + 1) n [] h, natDecAux_step (g' + 1) n [] h]
      rw [natDecAux_append (g + 1) (n / 10), natDecAux_append (g' + 1) (n / 10)]
      congr 1
      exact ih (n / 10) (by omega) g g'
        ((Nat.div_lt_iff_lt_mul (by norm_num)).mpr (by rw [← pow_succ]; exact hf))
        ((Nat.div_lt_iff_lt_mul (by norm_num)).mpr (by rw [← pow_succ]; exact hf'))

theorem natDec_rec (n : ℕ) (h : 10 ≤ n) :
    natDec n = natDec (n / 10) ++ [digitCh (n % 10)] := by
  have h10 : ¬ n < 10 := by omega
  show natDecAux (n + 1) n [] = natDecAux (n / 10 + 1) (n / 10) [] ++ [digitCh (n % 10)]
  simp only [natDecAux, if_neg h10]
  rw [natDecAux_append]
  congr 1
  obtain ⟨g, rfl⟩ : ∃ g, n = g + 1 := ⟨n - 1, by omega⟩
  apply natDecAux_fuel
  · calc (g + 1) / 10 ≤ g := by omega
      _ < 10 ^ g := Nat.lt_pow_self (by norm_num) g
  · exact Nat.lt_pow_self (by norm_num) _

theorem natDec_base (n : ℕ) (h : n < 10) : natDec n = [digitCh n] := by
  show natDecAux (n + 1) n [] = [digitCh n]
  simp [natDecAux, h]

theorem natDec_ne_nil (n : ℕ) : natDec n ≠ [] := by
  by_cases h : n < 10
  · rw [natDec_base n h]; simp
  · rw [natDec_rec n (by omega)]; simp

theorem natDec_digits (n : ℕ) : ∀ c ∈ natDec n, isDigitCh c = true := by
  induction n using Nat.strong_induction_on with
  | _ n ih =>
    by_cases h : n < 10
    · rw [natDec_base n h]
      intro c hc
      rw [List.mem_singleton.mp hc]
      exact isDigitCh_digitCh n h
    · rw [natDec_rec n (by omega)]
      intro c hc
      rcases List.mem_append.mp hc with h1 | h2
      · exact ih (n / 10) (by omega) c h1
      · rw [List.mem_singleton.mp h2]
        have hm : n % 10 < 10 := by omega
        exact isDigitCh_digitCh _ hm

theorem digitsVal_append : ∀ (s t : Str) (acc : ℕ),
    digitsVal acc (s ++ t) = digitsVal (digitsVal acc s) t := by
  intro s
  induction s with
  | nil => intro t acc; rfl
  | cons c cs ih => intro t acc; exact ih t (acc * 10 + (c.toNat - 48))

theorem natDec_val (n : ℕ) : digitsVal 0 (natDec n) = n := by
  induction n using Nat.strong_induction_on with
  | _ n ih =>
    by_cases h : n < 10
    · rw [natDec_base n h]
      show 0 * 10 + ((digitCh n).toNat - 48) = n
      rw [digitCh_toNat n h]
      omega
    · rw [natDec_rec n (by omega)]
      rw [digitsVal_append (natDec (n / 10)) [digitCh (n % 10)] 0]
      rw [ih (n / 10) (by omega)]
      show (n / 10) * 10 + ((digitCh (n % 10)).toNat - 48) = n
      have hm : n % 10 < 10 := by omega
      rw [digitCh_toNat _ hm]
      omega

theorem natDec_head_pos (n : ℕ) (hn : 1 ≤ n) : ∀ t, natDec n ≠ '0' :: t := by
  induction n using Nat.strong_induction_on with
  | _ n ih =>
    intro t ht
    by_cases h : n < 10
    · rw [natDec_base n h] at ht
      have : digitCh n = '0' := (List.cons.injEq _ _ _ _).mp ht |>.1
      have h2 := digitCh_toNat n h
      rw [this] at h2
      have : ('0' : Char).toNat = 48 := rfl
      omega
    · rw [natDec_rec n (by omega)] at ht
      obtain ⟨c, r, hcr⟩ : ∃ c r, natDec (n / 10) = c :: r := by
        cases hnd : natDec (n / 10) with
        | nil => exact absurd hnd (natDec_ne_nil _)
        | cons c r => exact ⟨c, r, rfl⟩
      rw [hcr] at ht
      simp only [List.cons_append, List.cons.injEq] at ht
      exact ih (n / 10) (by omega) (by omega) r (by rw [hcr, ht.1])

theorem natDec_zero_head (n : ℕ) (t : Str) (h : natDec n = '0' :: t) : t = [] := by
  by_cases hn : n < 10
  · rw [natDec_base n hn] at h
    exact ((List.cons.injEq _ _ _ _).mp h).2.symm
  · exact absurd h (natDec_head_pos n (by omega) t)

theorem takeWhile_append_all {p : Char → Bool} : ∀ (l r : Str), (∀ c ∈ l, p c = true) →
    (l ++ r).takeWhile p = l ++ r.takeWhile p := by
  intro l
  induction l with
  | nil => simp
  | cons c cs ih =>
    intro r hall
    simp only [List.cons_append]
    rw [List.takeWhile_cons_of_pos (hall c (by simp))]
    rw [ih r (fun b hb => hall b (by simp [hb]))]

theorem dropWhile_append_all {p : Char → Bool} : ∀ (l r : Str), (∀ c ∈ l, p c = true) →
    (l ++ r).dropWhile p = r.dropWhile p := by
  intro l
  induction l with
  | nil => simp
  | cons c cs ih =>
    intro r hall
    simp only [List.cons_append]
    rw [List.dropWhile_cons_of_pos (hall c (by simp))]
    exact ih r (fun b hb => hall b (by simp [hb]))

theorem restHead_stops (rest : Str)
    (hrest : ∀ c ∈ rest.head?, (isDigitCh c || c = '.' || c = 'e' || c = 'E') = false) :
    rest.takeWhile isDigitCh = [] ∧ rest.dropWhile isDigitCh = rest := by
  cases rest with
  | nil => simp
  | cons c t =>
    have hc := hrest c (by simp)
    simp only [Bool.or_eq_false_iff] at hc
    exact ⟨List.takeWhile_cons_of_neg (by simp [hc.1.1.1]),
      List.dropWhile_cons_of_neg (by simp [hc.1.1.1])⟩

theorem digit_ne_minus (d : Char) (hd : isDigitCh d = true) : ¬ d = '-' := by
  intro he
  rw [charEq_iff_toNat] at he
  simp only [isDigitCh, Bool.and_eq_true, decide_eq_true_eq] at hd
  have : ('-' : Char).toNat = 45 := rfl
  omega

theorem parseIntTok_natDec (m : ℕ) (rest : Str)
    (hrest : ∀ c ∈ rest.head?, (isDigitCh c || c = '.' || c = 'e' || c = 'E') = false) :
    parseIntTok (natDec m ++ rest) = some ((m : ℤ), rest) := by
  obtain ⟨tw, dw⟩ := restHead_stops rest hrest
  obtain ⟨d, dtl, hd⟩ : ∃ d dtl, natDec m = d :: dtl := by
    cases hnd : natDec m with
    | nil => exact absurd hnd (natDec_ne_nil m)
    | cons d dtl => exact ⟨d, dtl, rfl⟩
  have hddig : isDigitCh d = true := natDec_digits m d (by rw [hd]; simp)
  have halldig : ∀ c ∈ (d :: dtl : Str), isDigitCh c = true := by
    intro c hcmem
    exact natDec_digits m c (by rw [hd]; exact hcmem)
  unfold parseIntTok
  rw [hd]
  simp only [List.cons_append]
  rw [decide_eq_false (digit_ne_minus d hddig)]
  simp only [Bool.false_eq_true, if_false]
  rw [show d :: (dtl ++ rest) = (d :: dtl) ++ rest from rfl]
  rw [takeWhile_append_all (d :: dtl) rest halldig,
    dropWhile_append_all (d :: dtl) rest halldig, tw, dw, List.append_nil]
  have hlz : ¬ (d = '0' ∧ ¬ (dtl.isEmpty = true)) := by
    rintro ⟨h0, hne⟩
    rw [h0] at hd
    rw [natDec_zero_head m dtl hd] at hne
    exact hne rfl
  simp only [List.cons.injEq]
  rw [if_neg hlz]
  rw [← hd, natDec_val m]
  cases rest with
  | nil => rfl
  | cons c t =>
    have hc := hrest c (by simp)
    simp [hc]

theorem parseIntTok_intDec (n : ℤ) (rest : Str)
    (hrest : ∀ c ∈ rest.head?, (isDigitCh c || c = '.' || c = 'e' || c = 'E') = false) :
    parseIntTok (intDec n ++ rest) = some (n, rest) := by
  by_cases hn : n < 0
  · have hfor : intDec n = '-' :: natDec n.natAbs := by unfold intDec; rw [if_pos hn]
    obtain ⟨tw, dw⟩ := restHead_stops rest hrest
    obtain ⟨d, dtl, hd⟩ : ∃ d dtl, natDec n.natAbs = d :: dtl := by
      cases hnd : natDec n.natAbs with
      | nil => exact absurd hnd (natDec_ne_nil _)
      | cons d dtl => exact ⟨d, dtl, rfl⟩
    have halldig : ∀ c ∈ (d :: dtl : Str), isDigitCh c = true := by
      intro c hcmem
      exact natDec_digits n.natAbs c (by rw [hd]; exact hcmem)
    rw [hfor, hd]
    unfold parseIntTok
    simp only [List.cons_append]
    simp only [decide_True, if_true, List.drop_succ_cons, List.drop_zero]
    rw [show d :: (dtl ++ rest) = (d :: dtl) ++ rest from rfl]
    rw [takeWhile_append_all (d :: dtl) rest halldig,
      dropWhile_append_all (d :: dtl) rest halldig, tw, dw, List.append_nil]
    have hlz : ¬ (d = '0' ∧ ¬ (dtl.isEmpty = true)) := by
      rintro ⟨h0, hne⟩
      rw [h0] at hd
      rw [natDec_zero_head n.natAbs dtl hd] at hne
      exact hne rfl
    simp only [List.cons.injEq]
    rw [if_neg hlz]
    have hval : -((digitsVal 0 (d :: dtl) : ℕ) : ℤ) = n := by
      rw [← hd, natDec_val]
      omega
    rw [hval]
    cases rest with
    | nil => rfl
    | cons c t =>
      have hc := hrest c (by simp)
      simp [hc]
  · have hfor : intDec n = natDec n.toNat := by unfold intDec; rw [if_neg hn]
    rw [hfor, parseIntTok_natDec n.toNat rest hrest]
    have : ((n.toNat : ℕ) : ℤ) = n := by omega
    rw [this]

theorem uEscapeScan_bmp (c : Char) (h9 : c.toNat < 0x10000) (t : Str) :
    uEscapeScan (hex4 c.toNat ++ t) = some (c, t) := by
  have hrange : c.toNat < 55296 ∨ 57344 ≤ c.toNat := char_toNat_not_surrogate c
  unfold uEscapeScan
  rw [parseHex4_hex4 c.toNat (by omega) t]
  simp only [Option.some_bind]
  rw [if_neg (by omega), if_neg (by omega), ofNat_toNat_char c]

theorem uEscapeScan_pair_gen (hi lo : ℕ) (t : Str)
    (h1 : 0xd800 ≤ hi) (h2 : hi ≤ 0xdbff) (h3 : 0xdc00 ≤ lo) (h4 : lo ≤ 0xdfff) :
    uEscapeScan (hex4 hi ++ (bslash :: 'u' :: (hex4 lo ++ t))) =
      some (Char.ofNat (0x10000 + (hi - 0xd800) * 0x400 + (lo - 0xdc00)), t) := by
  unfold uEscapeScan
  rw [parseHex4_hex4 _ (by omega)]
  simp only [Option.some_bind]
  rw [if_pos ⟨h1, h2⟩]
  have hpre : ([bslash, 'u'] : Str).isPrefixOf
      (bslash :: 'u' :: (hex4 lo ++ t)) = true := by
    simp [List.isPrefixOf]
  rw [if_pos hpre]
  rw [show (bslash :: 'u' :: (hex4 lo ++ t)).drop 2 = hex4 lo ++ t from rfl]
  rw [parseHex4_hex4 _ (by omega)]
  simp only [Option.some_bind]
  rw [if_pos ⟨h3, h4⟩]

theorem uEscapeScan_pair (c : Char) (h9 : ¬ c.toNat < 0x10000) (t : Str) :
    uEscapeScan (hex4 (0xd800 + (c.toNat - 0x10000) / 0x400) ++
      (bslash :: 'u' :: (hex4 (0xdc00 + (c.toNat - 0x10000) % 0x400) ++ t))) = some (c, t) := by
  have hlt : c.toNat < 1114112 := char_toNat_lt c
  rw [uEscapeScan_pair_gen _ _ t (by omega) (by omega) (by omega) (by omega)]
  have hcomb : 65536 + (55296 + (c.toNat - 65536) / 1024 - 55296) * 1024 +
      (56320 + (c.toNat - 65536) % 1024 - 56320) = c.toNat := by omega
  rw [hcomb, ofNat_toNat_char c]

theorem escChar_step (c : Char) (f : ℕ) (t : Str) :
    parseStringBody (f + 1) (escChar c ++ t) =
      (parseStringBody f t).map (fun p => (c :: p.1, p.2)) := by
  unfold escChar
  by_cases h1 : c = dquote
  · rw [if_pos h1, h1]; rfl
  rw [if_neg h1]
  by_cases h2 : c = bslash
  · rw [if_pos h2, h2]; rfl
  rw [if_neg h2]
  by_cases h3 : c = '\x08'
  · rw [if_pos h3, h3]; rfl
  rw [if_neg h3]
  by_cases h4 : c = '\t'
  · rw [if_pos h4, h4]; rfl
  rw [if_neg h4]
  by_cases h5 : c = '\n'
  · rw [if_pos h5, h5]; rfl
  rw [if_neg h5]
  by_cases h6 : c = '\x0c'
  · rw [if_pos h6, h6]; rfl
  rw [if_neg h6]
  by_cases h7 : c = '\r'
  · rw [if_pos h7, h7]; rfl
  rw [if_neg h7]
  by_cases h8 : c.toNat < 0x20 ∨ 0x7e < c.toNat
  · rw [if_pos h8]
    have hstep : ∀ (X : Str), parseStringBody (f + 1) (bslash :: 'u' :: X) =
        (uEscapeScan X).bind (fun q =>
          (parseStringBody f q.2).map (fun p => (q.1 :: p.1, p.2))) := fun _ => rfl
    by_cases h9 : c.toNat < 0x10000
    · rw [if_pos h9]
      simp only [List.cons_append]
      rw [hstep, uEscapeScan_bmp c h9 t]
      simp only [Option.some_bind]
    · rw [if_neg h9]
      simp only [List.cons_append, List.append_assoc]
      rw [hstep, uEscapeScan_pair c h9 t]
      simp only [Option.some_bind]
  · rw [if_neg h8]
    have hc3 : ¬ c.toNat < 0x20 := by omega
    show parseStringBody (f + 1) (c :: t) = _
    rw [parseStringBody.eq_def]
    dsimp only
    rw [if_neg h1, if_neg h2, if_neg hc3]

theorem parseStringBody_escList : ∀ (s : Str) (f : ℕ) (rest : Str), s.length < f →
    parseStringBody f (escList s ++ (dquote :: rest)) = some (s, rest) := by
  intro s
  induction s with
  | nil =>
    intro f rest hf
    obtain ⟨f', rfl⟩ : ∃ f', f = f' + 1 := ⟨f - 1, by omega⟩
    rfl
  | cons c cs ih =>
    intro f rest hf
    obtain ⟨f', rfl⟩ : ∃ f', f = f' + 1 := ⟨f - 1, by omega⟩
    rw [show escList (c :: cs) = escChar c ++ escList cs from rfl, List.append_assoc]
    rw [escChar_step c f' (escList cs ++ dquote :: rest)]
    rw [ih f' rest (by simpa using Nat.lt_of_succ_lt_succ (by simpa using hf))]
    rfl

theorem escChar_ne_nil (c : Char) : escChar c ≠ [] := by
  unfold escChar
  repeat' split
  all_goals simp

theorem escList_length : ∀ s : Str, s.length ≤ (escList s).length := by
  intro s
  induction s with
  | nil => simp [escList]
  | cons c cs ih =>
    show (c :: cs).length ≤ (escChar c ++ escList cs).length
    have h1 : 1 ≤ (escChar c).length := by
      cases he : escChar c with
      | nil => exact absurd he (escChar_ne_nil c)
      | cons a t => simp
    simp only [List.length_cons, List.length_append]
    omega

theorem jws_cons_neg (c : Char) (t : Str) (h : isJsonWs c = false) : jws (c :: t) = c :: t :=
  List.dropWhile_cons_of_neg (by simp [h])

theorem parseVal_space (f : ℕ) (cs : Str) : parseVal f (' ' :: cs) = parseVal f cs := by
  cases f with
  | zero => rfl
  | succ f =>
    rw [parseVal.eq_def, parseVal.eq_def]
    dsimp only
    rw [show jws (' ' :: cs) = jws cs from rfl]

theorem parseElems_space (f : ℕ) (cs : Str) : parseElems f (' ' :: cs) = parseElems f cs := by
  cases f with
  | zero => rfl
  | succ f =>
    rw [parseElems.eq_def, parseElems.eq_def]
    dsimp only
    rw [parseVal_space]

theorem parseMembers_space (f : ℕ) (cs : Str) :
    parseMembers f (' ' :: cs) = parseMembers f cs := by
  cases f with
  | zero => rfl
  | succ f =>
    rw [parseMembers.eq_def, parseMembers.eq_def]
    dsimp only
    rw [show jws (' ' :: cs) = jws cs from rfl]

theorem char_ne_of_code (a b : Char) (m : ℕ) (hb : b.toNat = m) (h : ¬ a.toNat = m) :
    ¬ a = b := fun he => h (hb ▸ (charEq_iff_toNat a b).mp he)

theorem isJsonWs_false (d : Char) (h32 : ¬ d.toNat = 32) (h9 : ¬ d.toNat = 9)
    (h10 : ¬ d.toNat = 10) (h13 : ¬ d.toNat = 13) : isJsonWs d = false := by
  unfold isJsonWs
  rw [decide_eq_false (char_ne_of_code d ' ' 32 rfl h32),
    decide_eq_false (char_ne_of_code d '\t' 9 rfl h9),
    decide_eq_false (char_ne_of_code d '\n' 10 rfl h10),
    decide_eq_false (char_ne_of_code d '\x0d' 13 rfl h13)]
  rfl

theorem intDec_head_props (n : ℤ) : ∃ d dtl, intDec n = d :: dtl ∧
    (d.toNat = 45 ∨ (48 ≤ d.toNat ∧ d.toNat ≤ 57)) := by
  by_cases hn : n < 0
  · exact ⟨'-', natDec n.natAbs, by unfold intDec; rw [if_pos hn], Or.inl rfl⟩
  · obtain ⟨d, dtl, hd⟩ : ∃ d dtl, natDec n.toNat = d :: dtl := by
      cases hnd : natDec n.toNat with
      | nil => exact absurd hnd (natDec_ne_nil _)
      | cons d dtl => exact ⟨d, dtl, rfl⟩
    have hdig : isDigitCh d = true := natDec_digits n.toNat d (by rw [hd]; simp)
    simp only [isDigitCh, Bool.and_eq_true, decide_eq_true_eq] at hdig
    exact ⟨d, dtl, by unfold intDec; rw [if_neg hn]; exact hd, Or.inr hdig⟩

theorem jdump_head (v : JVal) : ∃ d dtl, jdump v = d :: dtl ∧
    isJsonWs d = false ∧ ¬ d = ']' := by
  cases v with
  | null => exact ⟨'n', ['u', 'l', 'l'], rfl, rfl, by decide⟩
  | bool b =>
    cases b with
    | false => exact ⟨'f', ['a', 'l', 's', 'e'], rfl, rfl, by decide⟩
    | true => exact ⟨'t', ['r', 'u', 'e'], rfl, rfl, by decide⟩
  | int n =>
    obtain ⟨d, dtl, hd, hdn⟩ := intDec_head_props n
    exact ⟨d, dtl, hd,
      isJsonWs_false d (by omega) (by omega) (by omega) (by omega),
      char_ne_of_code d ']' 93 rfl (by omega)⟩
  | str s => exact ⟨dquote, escList s ++ [dquote], rfl, rfl, by decide⟩
  | arr xs => exact ⟨'[', jdumpArr xs ++ [']'], rfl, rfl, by decide⟩
  | obj fs => exact ⟨lbrace, jdumpObj fs ++ [rbrace], rfl, rfl, by decide⟩

theorem jdumpArr_head (x : JVal) (tl : JArr) : ∃ d dtl,
    jdumpArr (.cons x tl) = d :: dtl ∧ isJsonWs d = false ∧ ¬ d = ']' := by
  obtain ⟨d, dtl, hd, hws, hne⟩ := jdump_head x
  cases tl with
  | nil => exact ⟨d, dtl, hd, hws, hne⟩
  | cons y tl2 =>
    refine ⟨d, dtl ++ ", ".data ++ jdumpArr (.cons y tl2), ?_, hws, hne⟩
    show jdump x ++ ", ".data ++ jdumpArr (.cons y tl2) = _
    rw [hd]
    simp

theorem jdumpObj_head (k : Str) (v : JVal) (tl : JObj) : ∃ dtl,
    jdumpObj (.cons k v tl) = dquote :: dtl := by
  cases tl with
  | nil =>
    refine ⟨escList k ++ [dquote] ++ ": ".data ++ jdump v, ?_⟩
    show (dquote :: (escList k ++ [dquote])) ++ ": ".data ++ jdump v = _
    simp
  | cons k2 v2 tl2 =>
    refine ⟨escList k ++ [dquote] ++ ": ".data ++ jdump v ++ ", ".data ++
      jdumpObj (.cons k2 v2 tl2), ?_⟩
    show (dquote :: (escList k ++ [dquote])) ++ ": ".data ++ jdump v ++ ", ".data ++
      jdumpObj (.cons k2 v2 tl2) = _
    simp

theorem restOk_head (c : Char) (r : Str)
    (h : (isDigitCh c || c = '.' || c = 'e' || c = 'E') = false) :
    ∀ c2 ∈ (c :: r).head?, (isDigitCh c2 || c2 = '.' || c2 = 'e' || c2 = 'E') = false := by
  intro c2 hc2
  simp only [List.head?_cons, Option.mem_def, Option.some.injEq] at hc2
  rwa [hc2] at h

theorem JObj.find_eq_none : (fs : JObj) → (k : Str) → fs.keys.contains k = false →
    fs.find k = none
  | .nil, _, _ => rfl
  | .cons k2 v2 tl, k, h => by
    simp only [JObj.keys, List.contains_cons, Bool.or_eq_false_iff] at h
    unfold JObj.find
    rw [if_neg (fun he => (by simpa [he] using h.1 : False)), JObj.find_eq_none tl k h.2]

theorem combine_of_find_none (k : Str) (v : JVal) (fs : JObj) (h : fs.find k = none) :
    JObj.combine k v fs = .cons k v fs := by
  unfold JObj.combine
  rw [h]

mutual
theorem jnodes_le_len : (v : JVal) → jnodes v ≤ (jdump v).length
  | .null => by decide
  | .bool b => by cases b <;> decide
  | .int n => by
    obtain ⟨d, dtl, hd, _⟩ := intDec_head_props n
    show 1 ≤ (intDec n).length
    rw [hd]
    simp
  | .str s => by
    show 1 ≤ (dquote :: (escList s ++ [dquote])).length
    simp
  | .arr xs => by
    have h := jnodesA_le_len xs
    show 1 + jnodesA xs ≤ ('[' :: (jdumpArr xs ++ [']'])).length
    simp only [List.length_cons, List.length_append]
    omega
  | .obj fs => by
    have h := jnodesO_le_len fs
    show 1 + jnodesO fs ≤ (lbrace :: (jdumpObj fs ++ [rbrace])).length
    simp only [List.length_cons, List.length_append]
    omega
theorem jnodesA_le_len : (xs : JArr) → jnodesA xs ≤ (jdumpArr xs).length + 1
  | .nil => Nat.zero_le _
  | .cons x .nil => by
    have h := jnodes_le_len x
    show 1 + jnodes x + 0 ≤ (jdump x).length + 1
    omega
  | .cons x (.cons y tl) => by
    have h1 := jnodes_le_len x
    have h2 := jnodesA_le_len (.cons y tl)
    show 1 + jnodes x + jnodesA (.cons y tl) ≤
      (jdump x ++ ", ".data ++ jdumpArr (.cons y tl)).length + 1
    simp only [List.length_append, List.length_cons, List.length_nil]
    omega
theorem jnodesO_le_len : (fs : JObj) → jnodesO fs ≤ (jdumpObj fs).length + 1
  | .nil => Nat.zero_le _
  | .cons k v .nil => by
    have h := jnodes_le_len v
    show 1 + jnodes v + 0 ≤ (jdumpStr k ++ ": ".data ++ jdump v).length + 1
    simp only [List.length_append]
    omega
  | .cons k v (.cons k2 v2 tl) => by
    have h1 := jnodes_le_len v
    have h2 := jnodesO_le_len (.cons k2 v2 tl)
    show 1 + jnodes v + jnodesO (.cons k2 v2 tl) ≤
      (jdumpStr k ++ ": ".data ++ jdump v ++ ", ".data ++ jdumpObj (.cons k2 v2 tl)).length + 1
    simp only [List.length_append, List.length_cons, List.length_nil]
    omega
end

theorem parse_jdump_aux : ∀ f : ℕ,
    (∀ (v : JVal) (rest : Str), jnodes v < f → jwf v = true →
      (∀ c ∈ rest.head?, (isDigitCh c || c = '.' || c = 'e' || c = 'E') = false) →
      parseVal f (jdump v ++ rest) = some (v, rest)) ∧
    (∀ (x : JVal) (tl : JArr) (rest : Str), jnodesA (.cons x tl) < f →
      jwfA (.cons x tl) = true →
      parseElems f (jdumpArr (.cons x tl) ++ (']' :: rest)) = some (.cons x tl, rest)) ∧
    (∀ (k : Str) (v : JVal) (tl : JObj) (rest : Str), jnodesO (.cons k v tl) < f →
      jwfO (.cons k v tl) = true →
      parseMembers f (jdumpObj (.cons k v tl) ++ (rbrace :: rest)) =
        some (.cons k v tl, rest)) := by
  intro f
  induction f with
  | zero =>
    exact ⟨fun v rest h _ _ => absurd h (Nat.not_lt_zero _),
      fun x tl rest h _ => absurd h (Nat.not_lt_zero _),
      fun k v tl rest h _ => absurd h (Nat.not_lt_zero _)⟩
  | succ f ih =>
    obtain ⟨ihV, ihE, ihM⟩ := ih
    refine ⟨?_, ?_, ?_⟩
    · intro v rest hn hwf hrest
      cases v with
      | null =>
        rw [show jdump JVal.null ++ rest = 'n' :: 'u' :: 'l' :: 'l' :: rest by simp [jdump],
          parseVal.eq_def]
        simp [jws, isJsonWs, List.isPrefixOf, lbrace, rbrace, dquote]
      | bool b =>
        cases b with
        | false =>
          rw [show jdump (JVal.bool false) ++ rest = 'f' :: 'a' :: 'l' :: 's' :: 'e' :: rest
            by simp [jdump], parseVal.eq_def]
          simp [jws, isJsonWs, List.isPrefixOf, lbrace, rbrace, dquote]
        | true =>
          rw [show jdump (JVal.bool true) ++ rest = 't' :: 'r' :: 'u' :: 'e' :: rest
            by simp [jdump], parseVal.eq_def]
          simp [jws, isJsonWs, List.isPrefixOf, lbrace, rbrace, dquote]
      | int n =>
        obtain ⟨d, dtl, hd, hdn⟩ := intDec_head_props n
        have hws : isJsonWs d = false :=
          isJsonWs_false d (by omega) (by omega) (by omega) (by omega)
        show parseVal (f + 1) (intDec n ++ rest) = some (.int n, rest)
        rw [hd, List.cons_append, parseVal.eq_def]
        try dsimp only
        try simp only []
        rw [jws_cons_neg d _ hws]
        try dsimp only
        try simp only []
        rw [if_neg (char_ne_of_code d lbrace 123 rfl (by omega)),
          if_neg (char_ne_of_code d '[' 91 rfl (by omega)),
          if_neg (char_ne_of_code d dquote 34 rfl (by omega)),
          if_neg (char_ne_of_code d 't' 116 rfl (by omega)),
          if_neg (char_ne_of_code d 'f' 102 rfl (by omega)),
          if_neg (char_ne_of_code d 'n' 110 rfl (by omega))]
        rw [show d :: (dtl ++ rest) = intDec n ++ rest by rw [hd]; rfl]
        rw [parseIntTok_intDec n rest hrest]
        rfl
      | str s =>
        show parseVal (f + 1) (jdumpStr s ++ rest) = some (.str s, rest)
        rw [show jdumpStr s ++ rest = dquote :: (escList s ++ (dquote :: rest)) by
          show (dquote :: (escList s ++ [dquote])) ++ rest = _
          simp]
        rw [parseVal.eq_def]
        try dsimp only
        try simp only []
        rw [jws_cons_neg dquote _ rfl]
        try dsimp only
        try simp only []
        rw [if_pos trivial]
        rw [parseStringBody_escList s _ rest (by
          simp only [List.length_append, List.length_cons]
          have := escList_length s
          omega)]
        rfl
      | arr xs =>
        cases xs with
        | nil =>
          rw [show jdump (JVal.arr .nil) ++ rest = '[' :: ']' :: rest by
              simp [jdump, jdumpArr],
            parseVal.eq_def]
          simp [jws, isJsonWs, lbrace, rbrace, dquote]
        | cons x tl =>
          obtain ⟨d, dtl, hd, hws, hnrb⟩ := jdumpArr_head x tl
          show parseVal (f + 1) (('[' :: (jdumpArr (.cons x tl) ++ [']'])) ++ rest) =
            some (.arr (.cons x tl), rest)
          rw [show ('[' :: (jdumpArr (.cons x tl) ++ [']'])) ++ rest =
            '[' :: (jdumpArr (.cons x tl) ++ (']' :: rest)) by simp]
          rw [parseVal.eq_def]
          try dsimp only
          try simp only []
          rw [jws_cons_neg '[' _ rfl]
          try dsimp only
          try simp only []
          rw [if_pos trivial]
          rw [hd, List.cons_append, jws_cons_neg d _ hws]
          try dsimp only
          try simp only []
          rw [if_neg hnrb]
          rw [show d :: (dtl ++ (']' :: rest)) = jdumpArr (.cons x tl) ++ (']' :: rest) by
            rw [hd]; rfl]
          have hjn : jnodesA (.cons x tl) < f := by
            have he : jnodes (.arr (.cons x tl)) = 1 + jnodesA (.cons x tl) := rfl
            omega
          rw [ihE x tl rest hjn (by simpa [jwf] using hwf)]
          rfl
      | obj fs =>
        cases fs with
        | nil =>
          rw [show jdump (JVal.obj .nil) ++ rest = lbrace :: rbrace :: rest by
              simp [jdump, jdumpObj],
            parseVal.eq_def]
          simp [jws, isJsonWs, lbrace, rbrace, dquote]
        | cons k v tl =>
          obtain ⟨dtl, hd⟩ := jdumpObj_head k v tl
          show parseVal (f + 1) ((lbrace :: (jdumpObj (.cons k v tl) ++ [rbrace])) ++ rest) =
            some (.obj (.cons k v tl), rest)
          rw [show (lbrace :: (jdumpObj (.cons k v tl) ++ [rbrace])) ++ rest =
            lbrace :: (jdumpObj (.cons k v tl) ++ (rbrace :: rest)) by simp]
          rw [parseVal.eq_def]
          try dsimp only
          try simp only []
          rw [jws_cons_neg lbrace _ rfl]
          try dsimp only
          try simp only []
          rw [if_pos trivial]
          rw [hd, List.cons_append, jws_cons_neg dquote _ rfl]
          try dsimp only
          try simp only []
          rw [if_neg (by decide)]
          rw [show dquote :: (dtl ++ (rbrace :: rest)) =
            jdumpObj (.cons k v tl) ++ (rbrace :: rest) by rw [hd]; rfl]
          have hjn : jnodesO (.cons k v tl) < f := by
            have he : jnodes (.obj (.cons k v tl)) = 1 + jnodesO (.cons k v tl) := rfl
            omega
          rw [ihM k v tl rest hjn (by simpa [jwf] using hwf)]
          rfl
    · intro x tl rest hn hwf
      have hwfx : jwf x = true := by
        have : (jwf x && jwfA tl) = true := hwf
        exact (Bool.and_eq_true _ _).mp this |>.1
      rw [parseElems.eq_def]
      try dsimp only
      try simp only []
      cases tl with
      | nil =>
        show (match parseVal f (jdump x ++ (']' :: rest)) with
          | none => none
          | some (v, r1) =>
            match jws r1 with
            | ',' :: r2 => (parseElems f r2).map (fun p => (JArr.cons v p.1, p.2))
            | c :: r2 => if c = ']' then some (.cons v .nil, r2) else none
            | [] => none) = some (JArr.cons x .nil, rest)
        rw [ihV x (']' :: rest) (by
            have he : jnodesA (JArr.cons x JArr.nil) = 1 + jnodes x + 0 := rfl
            omega) hwfx (restOk_head ']' rest (by decide))]
        rfl
      | cons y tl2 =>
        rw [show jdumpArr (.cons x (.cons y tl2)) ++ (']' :: rest) =
          jdump x ++ (',' :: ' ' :: (jdumpArr (.cons y tl2) ++ (']' :: rest))) by
          show jdump x ++ ", ".data ++ jdumpArr (.cons y tl2) ++ (']' :: rest) = _
          simp]
        rw [ihV x _ (by
            have he : jnodesA (JArr.cons x (JArr.cons y tl2)) =
              1 + jnodes x + jnodesA (JArr.cons y tl2) := rfl
            omega) hwfx (restOk_head ',' _ (by decide))]
        try dsimp only
        try simp only []
        rw [jws_cons_neg ',' _ rfl]
        try dsimp only
        try simp only []
        rw [parseElems_space]
        rw [ihE y tl2 rest (by
            have he : jnodesA (JArr.cons x (JArr.cons y tl2)) =
              1 + jnodes x + jnodesA (JArr.cons y tl2) := rfl
            omega) (by
            have : (jwf x && jwfA (JArr.cons y tl2)) = true := hwf
            exact (Bool.and_eq_true _ _).mp this |>.2)]
        rfl
    · intro k v tl rest hn hwf
      have hwf3 : (!(tl.keys.contains k) && jwf v && jwfO tl) = true := hwf
      simp only [Bool.and_eq_true, Bool.not_eq_true'] at hwf3
      obtain ⟨⟨hkey, hwfv⟩, hwftl⟩ := hwf3
      cases tl with
      | nil =>
        rw [parseMembers.eq_def]
        try dsimp only
        try simp only []
        rw [show jdumpObj (.cons k v .nil) ++ (rbrace :: rest) =
          dquote :: (escList k ++ (dquote :: (':' :: ' ' :: (jdump v ++
            (rbrace :: rest))))) by
          show (dquote :: (escList k ++ [dquote])) ++ (':' :: [' ']) ++ jdump v ++
            (rbrace :: rest) = _
          simp]
        rw [jws_cons_neg dquote _ rfl]
        try dsimp only
        try simp only []
        rw [if_pos trivial]
        rw [parseStringBody_escList k _ _ (by
          simp only [List.length_append, List.length_cons]
          have := escList_length k
          omega)]
        try dsimp only
        try simp only []
        rw [jws_cons_neg ':' _ rfl]
        try dsimp only
        try simp only []
        rw [parseVal_space]
        have hjnv : jnodes v < f := by
          have he : jnodesO (JObj.cons k v .nil) = 1 + jnodes v + 0 := rfl
          omega
        rw [ihV v (rbrace :: rest) hjnv hwfv (restOk_head rbrace rest (by decide))]
        rfl
      | cons k2 v2 tl2 =>
        rw [parseMembers.eq_def]
        try dsimp only
        try simp only []
        rw [show jdumpObj (.cons k v (.cons k2 v2 tl2)) ++ (rbrace :: rest) =
          dquote :: (escList k ++ (dquote :: (':' :: ' ' :: (jdump v ++
            (',' :: ' ' :: (jdumpObj (.cons k2 v2 tl2) ++ (rbrace :: rest))))))) by
          show (dquote :: (escList k ++ [dquote])) ++ (':' :: [' ']) ++ jdump v ++
            (',' :: [' ']) ++ jdumpObj (.cons k2 v2 tl2) ++ (rbrace :: rest) = _
          simp]
        rw [jws_cons_neg dquote _ rfl]
        try dsimp only
        try simp only []
        rw [if_pos trivial]
        rw [parseStringBody_escList k _ _ (by
          simp only [List.length_append, List.length_cons]
          have := escList_length k
          omega)]
        try dsimp only
        try simp only []
        rw [jws_cons_neg ':' _ rfl]
        try dsimp only
        try simp only []
        rw [parseVal_space]
        have hjnv : jnodes v < f := by
          have he : jnodesO (JObj.cons k v (JObj.cons k2 v2 tl2)) =
            1 + jnodes v + jnodesO (JObj.cons k2 v2 tl2) := rfl
          omega
        rw [ihV v _ hjnv hwfv (restOk_head ',' _ (by decide))]
        try dsimp only
        try simp only []
        rw [jws_cons_neg ',' _ rfl]
        try dsimp only
        try simp only []
        rw [parseMembers_space]
        rw [ihM k2 v2 tl2 rest (by
            have he : jnodesO (JObj.cons k v (JObj.cons k2 v2 tl2)) =
              1 + jnodes v + jnodesO (JObj.cons k2 v2 tl2) := rfl
            omega) hwftl]
        show some (JObj.combine k v (.cons k2 v2 tl2), rest) = _
        rw [combine_of_find_none k v _ (JObj.find_eq_none _ k hkey)]

theorem json_loads_jdump (v : JVal) (h : jwf v = true) : json_loads (jdump v) = some v := by
  unfold json_loads
  have hlen := jnodes_le_len v
  have hmain := (parse_jdump_aux ((jdump v).length + 1)).1 v [] (by omega) h (by simp)
  rw [show jdump v ++ ([] : Str) = jdump v from by simp] at hmain
  rw [hmain]
  rfl

theorem save_rag_results_eq (samples : List EvalSample) (R : List (Str × JVal))
    (h : ∀ s ∈ samples, ∀ out, dictFind R s.sample_id = some out →
      ∃ fs, out = JVal.obj fs) :
    save_rag_results samples R = some (samples.filterMap (fun s =>
      (dictFind R s.sample_id).map (fun out =>
        ({ sample_id := s.sample_id,
           answer := pyStr ((jget out "answer".data (.str [])).getD .null),
           contexts := jdump ((jget out "contexts".data (.arr .nil)).getD .null),
           raw := jdump ((jget out "raw".data (.obj .nil)).getD .null) } : RagRow)))) := by
  induction samples with
  | nil => rfl
  | cons s ss ih =>
    have ihs := ih (fun s2 hs2 => h s2 (List.mem_cons_of_mem s hs2))
    unfold save_rag_results
    unfold save_rag_results at ihs
    rw [List.foldr_cons, List.filterMap_cons, ihs]
    cases hdf : dictFind R s.sample_id with
    | none => simp [hdf]
    | some out =>
      obtain ⟨fs, rfl⟩ := h s (List.mem_cons_self s ss) out hdf
      simp [hdf, jget]

/-- C10: `save_rag_results` writes exactly one row per sample of the sample
list whose (stringified) sample id is a key of the results mapping, in the
order of the sample list, with the answer cell the stringified answer and
the contexts/raw cells JSON-encoded; entries of the mapping whose key
matches no sample are omitted from the saved rows.  The hypothesis
restricts to mappings whose stored outputs are dicts, the shape under
which the source's `.get` calls do not raise. -/
theorem C10_save_rows (samples : List EvalSample) (R : List (Str × JVal))
    (h : ∀ s ∈ samples, ∀ out, dictFind R s.sample_id = some out →
      ∃ fs, out = JVal.obj fs) :
    save_rag_results samples R = some (samples.filterMap (fun s =>
      (dictFind R s.sample_id).map (fun out =>
        ({ sample_id := s.sample_id,
           answer := pyStr ((jget out "answer".data (.str [])).getD .null),
           contexts := jdump ((jget out "contexts".data (.arr .nil)).getD .null),
           raw := jdump ((jget out "raw".data (.obj .nil)).getD .null) } : RagRow)))) :=
  save_rag_results_eq samples R h

theorem C10_save_rows_witness :
    save_rag_results
      [⟨"s1".data, "q1".data, "r1".data, none, none, []⟩,
       ⟨"s2".data, "q2".data, "r2".data, none, none, []⟩]
      [("s1".data, .obj (.cons "answer".data (.str "a1".data)
          (.cons "contexts".data (.arr (.cons (.str "c1".data) .nil))
            (.cons "raw".data (.obj .nil) .nil)))),
       ("zz".data, .obj .nil)] =
      some [⟨"s1".data, "a1".data, "[\"c1\"]".data, "\x7b\x7d".data⟩] := by
  rw [C10_save_rows _ _ (by
    intro s hs out hout
    simp only [List.mem_cons, List.mem_singleton, List.not_mem_nil, or_false] at hs
    rcases hs with rfl | rfl
    · simp only [dictFind] at hout
      split at hout
      · exact ⟨_, (Option.some.injEq _ _).mp hout.symm⟩
      · split at hout
        · exact ⟨_, (Option.some.injEq _ _).mp hout.symm⟩
        · exact absurd hout (by simp)
    · simp only [dictFind] at hout
      split at hout
      · exact ⟨_, (Option.some.injEq _ _).mp hout.symm⟩
      · split at hout
        · exact ⟨_, (Option.some.injEq _ _).mp hout.symm⟩
        · exact absurd hout (by simp))]
  simp [dictFind, jget, pyStr, pyStrF, jsize, jsizeA, jsizeO, JObj.find, Option.getD,
    jdump, jdumpArr, jdumpObj, jdumpStr, escList, escChar, dquote, bslash, lbrace, rbrace]

theorem jdump_isEmpty_false (v : JVal) : (jdump v).isEmpty = false := by
  obtain ⟨d, dtl, hd, _, _⟩ := jdump_head v
  rw [hd]
  rfl

theorem dictFind_dictInsert_self {β : Type} (m : List (Str × β)) (k : Str) (v : β) :
    dictFind (dictInsert m k v) k = some v := by
  induction m with
  | nil => simp [dictFind, dictInsert]
  | cons p tl ih =>
    obtain ⟨pk, pv⟩ := p
    by_cases hk : pk = k
    · simp [dictFind, dictInsert, hk]
    · simp [dictFind, dictInsert, hk, ih]

theorem dictFind_dictInsert_ne {β : Type} (m : List (Str × β)) (k k2 : Str) (v : β)
    (h : ¬ k = k2) : dictFind (dictInsert m k v) k2 = dictFind m k2 := by
  induction m with
  | nil => simp [dictFind, dictInsert, h]
  | cons p tl ih =>
    obtain ⟨pk, pv⟩ := p
    by_cases hk : pk = k
    · subst hk
      simp [dictFind, dictInsert, h]
    · simp only [dictInsert, if_neg hk]
      by_cases hk2 : pk = k2
      · simp [dictFind, hk2]
      · simp [dictFind, hk2, ih]

theorem load_rag_row_enc (acc : List (Str × JVal)) (k a : Str) (cv rv : JVal)
    (hc : jwf cv = true) (hr : jwf rv = true) :
    load_rag_row acc ⟨k, a, jdump cv, jdump rv⟩ =
      some (dictInsert acc k (.obj (.cons "answer".data (.str a)
        (.cons "contexts".data cv (.cons "raw".data rv .nil))))) := by
  unfold load_rag_row
  simp only [jdump_isEmpty_false, Bool.false_eq_true, if_false,
    json_loads_jdump cv hc, json_loads_jdump rv hr]

theorem loadFold_saved : ∀ (samples : List EvalSample) (R : List (Str × JVal))
    (acc : List (Str × JVal)),
    (∀ k v, dictFind R k = some v → ∃ a cv rv,
      v = JVal.obj (.cons "answer".data (.str a)
        (.cons "contexts".data cv (.cons "raw".data rv .nil))) ∧
      jwf cv = true ∧ jwf rv = true) →
    List.foldlM load_rag_row acc (samples.filterMap (fun s =>
      (dictFind R s.sample_id).map (fun out =>
        ({ sample_id := s.sample_id,
           answer := pyStr ((jget out "answer".data (.str [])).getD .null),
           contexts := jdump ((jget out "contexts".data (.arr .nil)).getD .null),
           raw := jdump ((jget out "raw".data (.obj .nil)).getD .null) } : RagRow)))) =
      some (samples.foldl (fun acc s =>
        (dictFind R s.sample_id).elim acc (fun v => dictInsert acc s.sample_id v)) acc) := by
  intro samples
  induction samples with
  | nil => intro R acc h; rfl
  | cons s ss ih =>
    intro R acc h
    rw [List.filterMap_cons, List.foldl_cons]
    cases hdf : dictFind R s.sample_id with
    | none =>
      simp only [hdf, Option.map_none', Option.elim]
      exact ih R acc h
    | some v =>
      obtain ⟨a, cv, rv, rfl, hc, hr⟩ := h s.sample_id v hdf
      simp only [hdf, Option.map_some', Option.elim]
      rw [List.foldlM_cons]
      rw [show (⟨s.sample_id,
          pyStr ((jget (JVal.obj (.cons "answer".data (.str a)
            (.cons "contexts".data cv (.cons "raw".data rv .nil))))
            "answer".data (.str [])).getD .null),
          jdump ((jget (JVal.obj (.cons "answer".data (.str a)
            (.cons "contexts".data cv (.cons "raw".data rv .nil))))
            "contexts".data (.arr .nil)).getD .null),
          jdump ((jget (JVal.obj (.cons "answer".data (.str a)
            (.cons "contexts".data cv (.cons "raw".data rv .nil))))
            "raw".data (.obj .nil)).getD .null)⟩ : RagRow) =
        ⟨s.sample_id, a, jdump cv, jdump rv⟩ by
          simp [jget, JObj.find, pyStr, pyStrF, jsize]]
      rw [load_rag_row_enc acc s.sample_id a cv rv hc hr]
      simp only [Option.bind_eq_bind, Option.some_bind]
      exact ih R _ h

theorem dictFind_fold_ne (samples : List EvalSample) (R : List (Str × JVal)) :
    ∀ (acc : List (Str × JVal)) (k : Str),
    (∀ s ∈ samples, ¬ s.sample_id = k ∨ dictFind R s.sample_id = none) →
    dictFind (samples.foldl (fun acc s =>
      (dictFind R s.sample_id).elim acc (fun v => dictInsert acc s.sample_id v)) acc) k =
      dictFind acc k := by
  induction samples with
  | nil => intro acc k h; rfl
  | cons s ss ih =>
    intro acc k h
    rw [List.foldl_cons]
    have hstep : dictFind ((dictFind R s.sample_id).elim acc
        (fun v => dictInsert acc s.sample_id v)) k = dictFind acc k := by
      rcases h s (by simp) with hne | hnone
      · cases hdf : dictFind R s.sample_id with
        | none => rfl
        | some v => exact dictFind_dictInsert_ne acc s.sample_id k v hne
      · rw [hnone]
        rfl
    rw [ih _ k (fun s2 hs2 => h s2 (by simp [hs2])), hstep]

theorem dictFind_fold_covered (samples : List EvalSample) (R : List (Str × JVal)) :
    ∀ (acc : List (Str × JVal)) (k : Str) (v : JVal) (s0 : EvalSample),
    s0 ∈ samples → s0.sample_id = k → dictFind R k = some v →
    (samples.map EvalSample.sample_id).Nodup →
    dictFind (samples.foldl (fun acc s =>
      (dictFind R s.sample_id).elim acc (fun v => dictInsert acc s.sample_id v)) acc) k =
      some v := by
  induction samples with
  | nil => intro acc k v s0 hmem; exact absurd hmem (List.not_mem_nil s0)
  | cons s ss ih =>
    intro acc k v s0 hmem hid hR hnd
    rw [List.foldl_cons]
    rcases List.mem_cons.mp hmem with rfl | hmem2
    · have hnok : ∀ s2 ∈ ss, ¬ s2.sample_id = k ∨ dictFind R s2.sample_id = none := by
        intro s2 hs2
        left
        intro he
        have hnotin := (List.nodup_cons.mp hnd).1
        rw [hid] at hnotin
        exact hnotin (he ▸ List.mem_map_of_mem EvalSample.sample_id hs2)
      rw [dictFind_fold_ne ss R _ k hnok]
      rw [show ((dictFind R s0.sample_id).elim acc
          (fun v => dictInsert acc s0.sample_id v)) = dictInsert acc s0.sample_id v by
        rw [hid, hR]
        rfl]
      rw [hid]
      exact dictFind_dictInsert_self acc k v
    · exact ih _ k v s0 hmem2 hid hR (List.nodup_cons.mp hnd).2

/-- C5 (amended): the save/load round-trip of the RAG result cache holds
for mappings whose keys all are sample ids of the sample list (entries
under other keys are dropped by `save_rag_results`, refuting the unrestricted
claim) and whose values are dicts with exactly the keys `answer` (a string),
`contexts` and `raw` holding well-formed JSON values: saving and re-loading
then reproduces the mapping pointwise, nested structures included. -/
theorem C5_cache_roundtrip (samples : List EvalSample) (R : List (Str × JVal))
    (hnodup : (samples.map EvalSample.sample_id).Nodup)
    (hkeys : ∀ k v, dictFind R k = some v → ∃ s, s ∈ samples ∧ s.sample_id = k)
    (hshape : ∀ k v, dictFind R k = some v → ∃ a cv rv,
      v = JVal.obj (.cons "answer".data (.str a)
        (.cons "contexts".data cv (.cons "raw".data rv .nil))) ∧
      jwf cv = true ∧ jwf rv = true) :
    ∃ rows M, save_rag_results samples R = some rows ∧
      load_rag_results rows = some M ∧ ∀ k, dictFind M k = dictFind R k := by
  have hobj : ∀ s ∈ samples, ∀ out, dictFind R s.sample_id = some out →
      ∃ fs, out = JVal.obj fs := by
    intro s _ out hout
    obtain ⟨a, cv, rv, rfl, _, _⟩ := hshape _ _ hout
    exact ⟨_, rfl⟩
  refine ⟨_, samples.foldl (fun acc s =>
      (dictFind R s.sample_id).elim acc (fun v => dictInsert acc s.sample_id v)) [],
    save_rag_results_eq samples R hobj, ?_, ?_⟩
  · exact loadFold_saved samples R [] hshape
  · intro k
    cases hk : dictFind R k with
    | some v =>
      obtain ⟨s0, hmem, hid⟩ := hkeys k v hk
      exact dictFind_fold_covered samples R [] k v s0 hmem hid hk hnodup
    | none =>
      rw [dictFind_fold_ne samples R [] k (by
        intro s2 hs2
        by_cases he : s2.sample_id = k
        · right
          rw [he, hk]
        · left
          exact he)]
      rfl

theorem C5_cache_counterexample :
    ∃ rows, save_rag_results
      [⟨"s1".data, "q1".data, "r1".data, none, none, []⟩]
      [("s1".data, JVal.obj (.cons "answer".data (.str "a1".data)
          (.cons "contexts".data (.arr (.cons (.str "c1".data) .nil))
            (.cons "raw".data (.obj .nil) .nil)))),
       ("zz".data, JVal.obj (.cons "answer".data (.str "a2".data)
          (.cons "contexts".data (.arr .nil)
            (.cons "raw".data (.obj .nil) .nil))))] = some rows ∧
      (load_rag_results rows).map (fun M => (dictFind M "zz".data).isSome) = some false ∧
      (dictFind [("s1".data, JVal.obj (.cons "answer".data (.str "a1".data)
          (.cons "contexts".data (.arr (.cons (.str "c1".data) .nil))
            (.cons "raw".data (.obj .nil) .nil)))),
       ("zz".data, JVal.obj (.cons "answer".data (.str "a2".data)
          (.cons "contexts".data (.arr .nil)
            (.cons "raw".data (.obj .nil) .nil))))] "zz".data).isSome = true := by
  refine ⟨[⟨"s1".data, "a1".data, "[\"c1\"]".data, "\x7b\x7d".data⟩], ?_, ?_, ?_⟩
  · decide
  · decide
  · decide

theorem C5_cache_roundtrip_witness :
    ∃ rows M, save_rag_results [⟨"s1".data, "q1".data, "r1".data, none, none, []⟩]
        [("s1".data, JVal.obj (.cons "answer".data (.str "a1".data)
          (.cons "contexts".data (.arr (.cons (.str "c1".data) .nil))
            (.cons "raw".data (.obj .nil) .nil))))] = some rows ∧
      load_rag_results rows = some M ∧
      ∀ k, dictFind M k = dictFind
        [("s1".data, JVal.obj (.cons "answer".data (.str "a1".data)
          (.cons "contexts".data (.arr (.cons (.str "c1".data) .nil))
            (.cons "raw".data (.obj .nil) .nil))))] k :=
  C5_cache_roundtrip
    [⟨"s1".data, "q1".data, "r1".data, none, none, []⟩]
    [("s1".data, JVal.obj (.cons "answer".data (.str "a1".data)
      (.cons "contexts".data (.arr (.cons (.str "c1".data) .nil))
        (.cons "raw".data (.obj .nil) .nil))))]
    (by simp)
    (by
      intro k v h
      by_cases hk : "s1".data = k
      · exact ⟨⟨"s1".data, "q1".data, "r1".data, none, none, []⟩, by simp, hk⟩
      · simp [dictFind, hk] at h)
    (by
      intro k v h
      by_cases hk : "s1".data = k
      · refine ⟨"a1".data, .arr (.cons (.str "c1".data) .nil), .obj .nil, ?_, rfl, rfl⟩
        simp only [dictFind, if_pos hk] at h
        exact ((Option.some.injEq _ _).mp h).symm
      · simp [dictFind, hk] at h)

theorem binary_grade_one_fallback (judge : Str → JVal) (sample : EvalSample)
    (output : RagOutput) (text : Str)
    (htext : extract_text_content (judge (binaryPrompt sample output)) = some text)
    (hfail : json_loads (extract_json_from_text text) = none) :
    binary_grade_one judge sample output =
      some ⟨sample.sample_id, "correctness_binary".data, 0,
        .str ("Failed to parse judge response. Raw content: ".data ++ text.take 200)⟩ := by
  unfold binary_grade_one
  rw [htext]
  dsimp only
  rw [hfail]
  rfl

theorem binary_grade_one_ok (judge : Str → JVal) (sample : EvalSample)
    (output : RagOutput)
    (h : ∃ text, extract_text_content (judge (binaryPrompt sample output)) = some text ∧
      binaryPayloadOk text) :
    (binary_grade_one judge sample output).isSome = true := by
  obtain ⟨text, htext, hok⟩ := h
  unfold binary_grade_one
  rw [htext]
  dsimp only
  unfold binaryPayloadOk at hok
  cases hjl : json_loads (extract_json_from_text text) with
  | none => simp only [hjl]; rfl
  | some v =>
    simp only [hjl] at hok ⊢
    try dsimp only at hok ⊢
    cases v with
    | obj fs =>
      dsimp only [jget]
      obtain ⟨q, hq⟩ := Option.isSome_iff_exists.mp hok
      rw [hq]
      rfl
    | null => exact hok.elim
    | bool b => exact hok.elim
    | int n => exact hok.elim
    | str s => exact hok.elim
    | arr xs => exact hok.elim

theorem mapM_some_of_forall {α β : Type} (f : α → Option β) :
    ∀ (l : List α), (∀ a ∈ l, (f a).isSome = true) →
    ∃ bs, l.mapM f = some bs ∧ bs.length = l.length ∧
      ∀ a ∈ l, ∀ b, f a = some b → b ∈ bs := by
  intro l
  induction l with
  | nil => exact fun _ => ⟨[], rfl, rfl, by simp⟩
  | cons a as ih =>
    intro h
    obtain ⟨b, hb⟩ := Option.isSome_iff_exists.mp (h a (by simp))
    obtain ⟨bs, hbs, hlen, hmem⟩ := ih (fun x hx => h x (by simp [hx]))
    refine ⟨b :: bs, ?_, by simp [hlen], ?_⟩
    · rw [List.mapM_cons, hb, hbs]
      rfl
    · intro x hx c hc
      rcases List.mem_cons.mp hx with rfl | hx2
      · rw [hb] at hc
        cases hc
        exact List.mem_cons_self _ _
      · exact List.mem_cons_of_mem _ (hmem x hx2 c hc)

/-- C3 (amended): when every judge response decodes to text whose extracted
JSON either fails to parse or parses to a dict with a float-convertible
`score` (the shapes under which the code does not raise),
`BinaryCorrectnessMetric.evaluate` returns exactly one record per
(sample, output) pair, and every pair whose extracted JSON fails to decode
yields the score-0 fallback record whose non-empty explanation embeds the
first 200 characters of the raw judge text (not the full raw content, and a
non-dict JSON payload such as a bare number raises instead — both refuting
parts of the unrestricted claim). -/
theorem C3_binary_policy (judge : Str → JVal) (samples : List EvalSample)
    (outputs : List RagOutput)
    (h : ∀ p ∈ samples.zip outputs, ∃ text,
      extract_text_content (judge (binaryPrompt p.1 p.2)) = some text ∧
      binaryPayloadOk text) :
    ∃ recs, binary_evaluate judge samples outputs = some recs ∧
      recs.length = (samples.zip outputs).length ∧
      ∀ p ∈ samples.zip outputs, ∀ text,
        extract_text_content (judge (binaryPrompt p.1 p.2)) = some text →
        json_loads (extract_json_from_text text) = none →
        (⟨p.1.sample_id, "correctness_binary".data, 0,
          .str ("Failed to parse judge response. Raw content: ".data ++ text.take 200)⟩ :
          BinaryRecord) ∈ recs := by
  have hall : ∀ p ∈ samples.zip outputs,
      ((fun (p : EvalSample × RagOutput) => binary_grade_one judge p.1 p.2) p).isSome = true :=
    fun p hp => binary_grade_one_ok judge p.1 p.2 (h p hp)
  have H := mapM_some_of_forall
    (fun (p : EvalSample × RagOutput) => binary_grade_one judge p.1 p.2)
    (samples.zip outputs) hall
  obtain ⟨recs, hrecs, hlen, hmem⟩ := H
  refine ⟨recs, ?_, hlen, ?_⟩
  · unfold binary_evaluate
    exact hrecs
  · intro p hp text htext hfail
    exact hmem p hp _ (binary_grade_one_fallback judge p.1 p.2 text htext hfail)

set_option maxRecDepth 4000 in
theorem C3_binary_counterexample :
    (binary_evaluate (fun _ => .str "42".data)
      [⟨"s1".data, "q1".data, "r1".data, none, none, []⟩]
      [⟨"a1".data, [], .null⟩]).isSome = false ∧
    ∃ recs, binary_evaluate (fun _ => .str (List.replicate 250 'a'))
      [⟨"s1".data, "q1".data, "r1".data, none, none, []⟩]
      [⟨"a1".data, [], .null⟩] = some recs ∧
      ∀ r ∈ recs, ∀ e, r.explanation = .str e →
        ¬ (List.replicate 250 'a' <:+: e) := by
  constructor
  · decide
  · have hnone : json_loads (extract_json_from_text (List.replicate 250 'a')) = none := by
      have hb : (json_loads (extract_json_from_text (List.replicate 250 'a'))).isSome
          = false := by decide
      cases hjl : json_loads (extract_json_from_text (List.replicate 250 'a')) with
      | none => rfl
      | some v => rw [hjl] at hb; exact absurd hb (by simp)
    have hrec := binary_grade_one_fallback (fun _ => .str (List.replicate 250 'a'))
      ⟨"s1".data, "q1".data, "r1".data, none, none, []⟩ ⟨"a1".data, [], .null⟩
      (List.replicate 250 'a') rfl hnone
    refine ⟨[⟨"s1".data, "correctness_binary".data, 0,
      .str ("Failed to parse judge response. Raw content: ".data ++
        (List.replicate 250 'a').take 200)⟩], ?_, ?_⟩
    · unfold binary_evaluate
      rw [show ([⟨"s1".data, "q1".data, "r1".data, none, none, []⟩] :
          List EvalSample).zip [(⟨"a1".data, [], .null⟩ : RagOutput)] =
        [(⟨"s1".data, "q1".data, "r1".data, none, none, []⟩, ⟨"a1".data, [], .null⟩)]
        from rfl]
      rw [List.mapM_cons, hrec]
      rfl
    · intro r hr e he hinf
      simp only [List.mem_singleton] at hr
      subst hr
      have he2 : JVal.str ("Failed to parse judge response. Raw content: ".data ++
          (List.replicate 250 'a').take 200) = JVal.str e := he
      injection he2 with h2
      have hle := hinf.length_le
      rw [← h2] at hle
      simp at hle

theorem C3_binary_policy_witness :
    ∃ recs, binary_evaluate (fun _ => .str "I cannot answer".data)
        [⟨"s1".data, "q1".data, "r1".data, none, none, []⟩]
        [⟨"a1".data, [], .null⟩] = some recs ∧
      recs.length = (([⟨"s1".data, "q1".data, "r1".data, none, none, []⟩] :
        List EvalSample).zip [(⟨"a1".data, [], .null⟩ : RagOutput)]).length ∧
      ∀ p ∈ ([⟨"s1".data, "q1".data, "r1".data, none, none, []⟩] :
          List EvalSample).zip [(⟨"a1".data, [], .null⟩ : RagOutput)], ∀ text,
        extract_text_content ((fun _ => .str "I cannot answer".data)
          (binaryPrompt p.1 p.2)) = some text →
        json_loads (extract_json_from_text text) = none →
        (⟨p.1.sample_id, "correctness_binary".data, 0,
          .str ("Failed to parse judge response. Raw content: ".data ++ text.take 200)⟩ :
          BinaryRecord) ∈ recs :=
  C3_binary_policy (fun _ => .str "I cannot answer".data)
    [⟨"s1".data, "q1".data, "r1".data, none, none, []⟩]
    [⟨"a1".data, [], .null⟩]
    (by
      intro p hp
      refine ⟨"I cannot answer".data, rfl, ?_⟩
      have hnone : json_loads (extract_json_from_text "I cannot answer".data) = none := by
        have hb : (json_loads (extract_json_from_text "I cannot answer".data)).isSome
            = false := by decide
        cases hjl : json_loads (extract_json_from_text "I cannot answer".data) with
        | none => rfl
        | some v => rw [hjl] at hb; exact absurd hb (by simp)
      unfold binaryPayloadOk
      rw [hnone]
      exact trivial)

theorem dedupKeepLast_eq_self {α κ : Type} [BEq κ] [LawfulBEq κ] (key : α → κ) :
    ∀ l : List α, (l.map key).Nodup → dedupKeepLast key l = l := by
  intro l
  induction l with
  | nil => intro h; rfl
  | cons x tl ih =>
    intro h
    rw [List.map_cons, List.nodup_cons] at h
    unfold dedupKeepLast
    have hc : ((tl.map key).contains (key x)) = false := by
      cases hc2 : (tl.map key).contains (key x)
      · rfl
      · exact absurd (List.mem_of_elem_eq_true hc2) h.1
    rw [hc]
    simp only [Bool.false_eq_true, if_false]
    rw [ih h.2]

theorem dedupKeepLast_append_covered {α κ : Type} [BEq κ] [LawfulBEq κ] (key : α → κ) :
    ∀ (l1 l2 : List α), (∀ x ∈ l1, key x ∈ l2.map key) →
    dedupKeepLast key (l1 ++ l2) = dedupKeepLast key l2 := by
  intro l1
  induction l1 with
  | nil => intro l2 h; rfl
  | cons x tl ih =>
    intro l2 h
    rw [List.cons_append]
    rw [dedupKeepLast.eq_def]
    dsimp only
    have hc : ((tl ++ l2).map key).contains (key x) = true := by
      refine List.elem_eq_true_of_mem ?_
      rw [List.map_append]
      exact List.mem_append_right _ (h x (by simp))
    rw [hc]
    simp only [if_true]
    exact ih l2 (fun y hy => h y (by simp [hy]))

/-- C6 (amended): when the newly collected runs all carry a `(run name,
timestamp)` key already present in the existing table, the run aggregator
pre-filters every one of them out before saving, so the merged table is
exactly the existing rows (re-sorted by timestamp string): one row per key,
holding the EXISTING values — the earlier-supplied ones — while the
later-supplied duplicates are discarded (refuting last-write-wins; values
are indeed never averaged).  The stability hypothesis states that the
existing table survives the summary round-trip the source performs. -/
theorem C6_merge_existing_wins (new_summaries : List RunSummary) (edf : List CsvRow)
    (hne : new_summaries.isEmpty = false)
    (hlen : 0 < edf.length)
    (hnodup : (edf.map rowKey).Nodup)
    (hstable : summaries_to_dataframe (dataframe_to_summaries edf) = edf)
    (hdup : ∀ s ∈ new_summaries,
      ((dataframe_to_summaries edf).map (fun t =>
        (t.evaluation_run_name, t.run_timestamp))).contains (newSummaryKey s) = true) :
    aggregate_local_results_merge new_summaries (some edf) =
      sortLe (fun a b => strLeB a.run_timestamp b.run_timestamp) edf := by
  unfold aggregate_local_results_merge
  rw [hne]
  simp only [Bool.false_eq_true, if_false]
  try dsimp only
  try simp only []
  rw [show (new_summaries.filter (fun s =>
      !(((dataframe_to_summaries edf).map (fun s =>
        (s.evaluation_run_name, s.run_timestamp))).contains (newSummaryKey s)))) = []
    from List.filter_eq_nil.mpr (fun s hs => by rw [hdup s hs]; simp)]
  rw [List.append_nil]
  unfold save_evaluation_csv
  dsimp only
  rw [hstable, if_pos hlen]
  rw [dedupKeepLast_append_covered rowKey edf edf
    (fun x hx => List.mem_map_of_mem rowKey hx)]
  rw [dedupKeepLast_eq_self rowKey edf hnodup]

theorem C6_merge_counterexample :
    aggregate_local_results_merge
      [⟨"r".data, "local".data, "2024-01-01T00:00:00".data, [], some 5,
        [("m".data, [("mean".data, 2)])], none⟩]
      (some [⟨"r".data, "local".data, "2024-01-01T00:00:00".data, some 5, [],
        [("m_mean".data, 1)]⟩]) =
      [⟨"r".data, "local".data, "2024-01-01T00:00:00".data, some 5, [],
        [("m_mean".data, 1)]⟩] ∧
    (1 : ℚ) ≠ 2 := by
  refine ⟨?_, by norm_num⟩
  decide

theorem C6_merge_existing_wins_witness :
    aggregate_local_results_merge
      [⟨"r".data, "local".data, "2024-01-01T00:00:00".data, [], some 5,
        [("m".data, [("mean".data, 2)])], none⟩]
      (some [⟨"r".data, "local".data, "2024-01-01T00:00:00".data, some 5, [],
        [("m_mean".data, 1)]⟩]) =
      sortLe (fun a b => strLeB a.run_timestamp b.run_timestamp)
        [⟨"r".data, "local".data, "2024-01-01T00:00:00".data, some 5, [],
          [("m_mean".data, 1)]⟩] :=
  C6_merge_existing_wins
    [⟨"r".data, "local".data, "2024-01-01T00:00:00".data, [], some 5,
      [("m".data, [("mean".data, 2)])], none⟩]
    [⟨"r".data, "local".data, "2024-01-01T00:00:00".data, some 5, [],
      [("m_mean".data, 1)]⟩]
    (by decide) (by decide) (by decide) (by decide) (by decide)

theorem normalize_tz_none (o : Option PyDateTime) (t : PyDateTime)
    (h : normalize_datetime o = some t) : t.tz = none := by
  cases o with
  | none => exact absurd h (by simp [normalize_datetime])
  | some dt =>
    unfold normalize_datetime at h
    dsimp only at h
    cases hdt : dt.tz with
    | some off =>
      rw [hdt] at h
      cases h
      rfl
    | none =>
      rw [hdt] at h
      cases h
      exact hdt

theorem mem_dictInsert {β : Type} (md : List (Str × β)) (k : Str) (v : β)
    (n : Str) (s : β) (h : (n, s) ∈ dictInsert md k v) :
    (n, s) ∈ md ∨ (n = k ∧ s = v) := by
  induction md with
  | nil =>
    simp only [dictInsert, List.mem_singleton] at h
    exact Or.inr ⟨congrArg Prod.fst h, congrArg Prod.snd h⟩
  | cons p tl ih =>
    obtain ⟨pk, pv⟩ := p
    by_cases hk : pk = k
    · subst hk
      simp only [dictInsert, if_pos rfl] at h
      rcases List.mem_cons.mp h with he | hmem
      · exact Or.inr ⟨congrArg Prod.fst he, congrArg Prod.snd he⟩
      · exact Or.inl (List.mem_cons_of_mem _ hmem)
    · simp only [dictInsert, if_neg hk] at h
      rcases List.mem_cons.mp h with he | hmem
      · exact Or.inl (List.mem_cons.mpr (Or.inl he))
      · rcases ih hmem with hold | hnew
        · exact Or.inl (List.mem_cons_of_mem _ hold)
        · exact Or.inr hnew

theorem dictFind_mem {β : Type} : ∀ (md : List (Str × β)) (k : Str) (v : β),
    dictFind md k = some v → (k, v) ∈ md := by
  intro md
  induction md with
  | nil => intro k v h; exact absurd h (by simp [dictFind])
  | cons p tl ih =>
    intro k v h
    obtain ⟨pk, pv⟩ := p
    by_cases hk : pk = k
    · subst hk
      simp only [dictFind, if_pos rfl] at h
      cases h
      exact List.mem_cons_self _ _
    · simp only [dictFind, if_neg hk] at h
      exact List.mem_cons_of_mem _ (ih k v h)

theorem mdAppend_naive (md : List (Str × List (Str × Option PyDateTime × ℚ)))
    (name : Str) (e : Str × Option PyDateTime × ℚ)
    (hmd : ∀ n series, (n, series) ∈ md → ∀ x ∈ series, ∀ t, x.2.1 = some t → t.tz = none)
    (he : ∀ t, e.2.1 = some t → t.tz = none) :
    ∀ n series, (n, series) ∈ mdAppend md name e →
      ∀ x ∈ series, ∀ t, x.2.1 = some t → t.tz = none := by
  intro n series hmem x hx t hxt
  unfold mdAppend at hmem
  cases hdf : dictFind md name with
  | some l =>
    rw [hdf] at hmem
    rcases mem_dictInsert md name (l ++ [e]) n series hmem with hold | ⟨rfl, rfl⟩
    · exact hmd n series hold x hx t hxt
    · rcases List.mem_append.mp hx with hxl | hxe
      · exact hmd n l (dictFind_mem md n l hdf) x hxl t hxt
      · rw [List.mem_singleton.mp hxe] at hxt
        exact he t hxt
  | none =>
    rw [hdf] at hmem
    rcases List.mem_append.mp hmem with hold | hnew
    · exact hmd n series hold x hx t hxt
    · have hp := List.mem_singleton.mp hnew
      have hseries : series = [e] := congrArg Prod.snd hp
      rw [hseries] at hx
      rw [List.mem_singleton.mp hx] at hxt
      exact he t hxt

theorem foldl_preserve {σ α : Type} (P : σ → Prop) (step : σ → α → σ)
    (hstep : ∀ s a, P s → P (step s a)) :
    ∀ (l : List α) (s : σ), P s → P (l.foldl step s) := by
  intro l
  induction l with
  | nil => intro s h; exact h
  | cons a as ih => intro s h; exact ih (step s a) (hstep s a h)

/-- C7: the run aggregator normalizes every timestamp to a timezone-naive
value before it is stored or compared: the aware timestamp
2024-01-01T00:00:00+05:00 normalizes to the naive 2023-12-31T19:00:00, a
naive timestamp is left unchanged (so the two denote the same instant after
normalization), the common normalized instant precedes the naive
2024-01-01T00:00:01, and every timestamp stored in the metric series
produced by `extract_metric_data` — the values its sort keys compare — is
timezone-naive. -/
theorem C7_timestamp_normalization :
    normalize_datetime (some (mkDT 2024 1 1 0 0 0 (some 18000))) =
      some (mkDT 2023 12 31 19 0 0 none) ∧
    normalize_datetime (some (mkDT 2023 12 31 19 0 0 none)) =
      some (mkDT 2023 12 31 19 0 0 none) ∧
    (mkDT 2023 12 31 19 0 0 none).wall < (mkDT 2024 1 1 0 0 1 none).wall ∧
    ∀ (summaries : List SummaryIn) (name : Str)
      (series : List (Str × Option PyDateTime × ℚ)),
      (name, series) ∈ (extract_metric_data summaries).1 →
      ∀ x ∈ series, ∀ t, x.2.1 = some t → t.tz = none := by
  refine ⟨by decide, by decide, by decide, ?_⟩
  intro summaries name series hmem x hx t hxt
  unfold extract_metric_data at hmem
  dsimp only at hmem
  rw [List.mem_map] at hmem
  obtain ⟨p, hp, he⟩ := hmem
  have hseries : series = sortLe (fun a b => tsRunLe ((a.2.1, a.1)) ((b.2.1, b.1))) p.2 :=
    (congrArg Prod.snd he).symm
  have hxp : x ∈ p.2 := ((sortLe_perm _ p.2).mem_iff).mp (hseries ▸ hx)
  have hinv := foldl_preserve
    (fun st : List (Str × List (Str × Option PyDateTime × ℚ)) ×
        List (Str × Option PyDateTime) × List (Str × Str) =>
      ∀ n srs, (n, srs) ∈ st.1 → ∀ y ∈ srs, ∀ t2, y.2.1 = some t2 → t2.tz = none)
    emdStep
    (by
      intro st s hst
      unfold emdStep
      dsimp only
      refine foldl_preserve
        (fun md => ∀ n srs, (n, srs) ∈ md → ∀ y ∈ srs, ∀ t2, y.2.1 = some t2 →
          t2.tz = none)
        _ ?_ s.metrics st.1 hst
      intro md q hmd
      cases hdf : dictFind q.2 ['m', 'e', 'a', 'n'] with
      | none => exact hmd
      | some o =>
        cases o with
        | none => exact hmd
        | some mean =>
          exact mdAppend_naive md q.1 _ hmd
            (fun t2 ht2 => normalize_tz_none _ t2 ht2))
    summaries ([], [], []) (by intro n srs h2; exact absurd h2 (List.not_mem_nil _))
  exact hinv p.1 p.2 (by simpa using hp) x hxp t hxt
